import Mathlib

/-! Verification of the indentation-tracking token scanner of tree-sitter-patto
(file `src/tree-sitter-patto/src/scanner.c`).

Shallow-embedding conventions:

* The character stream seen through the `TSLexer` cursor is a `List Nat` of
  character codes; the empty list plays the role of end-of-input
  (`lexer->eof`, where the lexer also reports lookahead 0).
* The C `Scanner` struct stores the indentation stack in a fixed `uint16_t`
  array with the bottom at index 0 and `stack_size` live entries.  Here the
  stack is a `List Nat` with the TOP at the head, so a push is `cons`,
  a pop (`stack_size--`) is `tail`, and `indent_stack[stack_size - 1]` is
  `headD _ 0`.  The C array contents (bottom first) correspond to the
  REVERSE of the list.
* Machine integers are modelled as `Nat` / `Int` with explicit reductions
  mod 2^16 / 2^32 exactly at the points where the C code stores into a
  `uint16_t`, increments a `uint32_t`, or casts to `int32_t`.
* A scan step returns `none` for "no match" (the C `return false`; the C
  code mutates no state on those paths) and `some (kind, state, rest)` for
  a match, `rest` being the input remaining after the consumed characters.
-/

/-- The three external token kinds of `enum TokenType` in scanner.c. -/
inductive TokenType where
  | NEWLINE : TokenType
  | INDENT : TokenType
  | DEDENT : TokenType
deriving DecidableEq, Repr

/-- The mutable scanner state (struct `Scanner` in scanner.c).
`indent_stack` holds the live entries `indent_stack[0 .. stack_size-1]`
of the C array, top of stack at the HEAD of the list (the C array is the
reverse).  `dedent_count` is a `uint32_t`, `pending_indent` an `int32_t`
where `-1` (any negative value) means "no pending indent". -/
structure Scanner where
  indent_stack : List Nat
  dedent_count : Nat
  pending_indent : Int
deriving DecidableEq, Repr

/-- Reduction of a `Nat` to the value stored in a `uint16_t`. -/
def u16 (n : Nat) : Nat := n % 65536

/-- Reduction of a `Nat` to the value held by a `uint32_t`. -/
def u32 (n : Nat) : Nat := n % 4294967296

/-- The value of the C cast `(int32_t)x` applied to a `uint32_t` value
(two's complement reinterpretation). -/
def toI32 (n : Nat) : Int :=
  if n % 4294967296 < 2147483648 then ((n % 4294967296 : Nat) : Int)
  else ((n % 4294967296 : Nat) : Int) - 4294967296

/-- `scanner_reset` in scanner.c: single stack level of width 0, no owed
dedents, no pending indent. -/
def scanner_reset : Scanner :=
  { indent_stack := [0], dedent_count := 0, pending_indent := -1 }

/-- `advance_newline` in scanner.c: consume one line terminator, treating
a carriage return immediately followed by a line feed as one terminator.
(Only called with a non-empty stream in the C code; on `[]` it is the
identity, like `lexer->advance` at EOF.) -/
def advance_newline : List Nat → List Nat
  | 13 :: 10 :: rest => rest
  | _ :: rest => rest
  | [] => []

/-- The loop `while (lexer->lookahead == '\r') advance_newline(lexer)` in
`tree_sitter_patto_external_scanner_scan`: each iteration consumes a
carriage return together with an immediately following line feed. -/
def skipCRs : List Nat → List Nat
  | 13 :: 10 :: rest => skipCRs rest
  | 13 :: rest => skipCRs rest
  | rest => rest

/-- The loop counting leading tab characters (`indent_length`) in
`tree_sitter_patto_external_scanner_scan`; returns the count together
with the remaining stream. -/
def countTabs : List Nat → Nat × List Nat
  | 9 :: rest => ((countTabs rest).1 + 1, (countTabs rest).2)
  | rest => (0, rest)

/-- The test `next_char == '\n' || next_char == '\r' || next_char == 0`
(`line_is_blank`); at end-of-input the lookahead is 0. -/
def lineIsBlank : List Nat → Bool
  | [] => true
  | c :: _ => c = 10 || c = 13 || c = 0

/-- The dedent loop
`while (stack_size > 1 && indent_length < indent_stack[stack_size-1])
{ stack_size--; dedent_count++; }` of scanner.c, acting on the stack
(top at head) and the `uint32_t` owed-dedent counter. -/
def popLevels (w : Nat) : List Nat → Nat → List Nat × Nat
  | t :: r :: rest, d =>
    if w < t then popLevels w (r :: rest) ((d + 1) % 4294967296)
    else (t :: r :: rest, d)
  | s, d => (s, d)

/-- The guarded push
`if (stack_size < MAX_INDENT_DEPTH) indent_stack[stack_size++] = w`
of scanner.c (`MAX_INDENT_DEPTH = 256`). -/
def pushCap (st : List Nat) (w : Nat) : List Nat :=
  if st.length < 256 then w :: st else st

/-- The indentation-comparison block at the end of
`tree_sitter_patto_external_scanner_scan` (lines 165-181): given the
counted tab run `n` and the stream after the tabs, update the stack,
owed-dedent counter and pending indent.  `u32 n` is the value of the
`uint32_t` variable `indent_length`. -/
def scanIndentUpdate (s : Scanner) (n : Nat) (rest : List Nat) : Scanner :=
  if lineIsBlank rest then s
  else
    let current := s.indent_stack.headD 0
    if u32 n > current then { s with pending_indent := toI32 n }
    else if u32 n < current then
      let pr := popLevels (u32 n) s.indent_stack s.dedent_count
      if u32 n > pr.1.headD 0 then
        { s with indent_stack := pr.1, dedent_count := pr.2, pending_indent := toI32 n }
      else
        { s with indent_stack := pr.1, dedent_count := pr.2 }
    else s

/-- `tree_sitter_patto_external_scanner_scan`.  `vN`, `vI`, `vD` are
`valid_symbols[NEWLINE]`, `valid_symbols[INDENT]`, `valid_symbols[DEDENT]`.
Returns `none` for "no match" (state unchanged in the C code on every such
path) and otherwise the reported kind, the updated state and the remaining
input. -/
def scan (s : Scanner) (input : List Nat) (vN vI vD : Bool) :
    Option (TokenType × Scanner × List Nat) :=
  if 0 < s.dedent_count ∧ vD = true then
    some (TokenType.DEDENT, { s with dedent_count := s.dedent_count - 1 }, input)
  else if 0 ≤ s.pending_indent ∧ vI = true then
    some (TokenType.INDENT,
      { s with indent_stack := pushCap s.indent_stack (u16 s.pending_indent.toNat),
               pending_indent := -1 }, input)
  else
    match input with
    | [] =>
      if vD = true ∧ 1 < s.indent_stack.length then
        some (TokenType.DEDENT, { s with indent_stack := s.indent_stack.tail }, [])
      else none
    | c :: rest =>
      if (c = 10 ∨ c = 13) ∧ vN = true then
        some (TokenType.NEWLINE,
          scanIndentUpdate s (countTabs (skipCRs (advance_newline (c :: rest)))).1
            (countTabs (skipCRs (advance_newline (c :: rest)))).2,
          (countTabs (skipCRs (advance_newline (c :: rest)))).2)
      else none

/-- Fuel-bounded driver representing a host that scans a document to
completion with every synthetic kind always admissible: at each step it
offers all three kinds to the scanner; on "no match" it lets its internal
lexer consume one ordinary character, and it stops when the scanner
reports no match at end-of-input.  Returns the emitted synthetic tokens
and the final scanner state, or `none` if the fuel ran out. -/
def driveDoc : Nat → Scanner → List Nat → Option (List TokenType × Scanner)
  | 0, _, _ => none
  | fuel + 1, s, input =>
    match scan s input true true true with
    | some (t, s', rest) =>
      match driveDoc fuel s' rest with
      | some (ts, sf) => some (t :: ts, sf)
      | none => none
    | none =>
      match input with
      | [] => some ([], s)
      | _ :: rest => driveDoc fuel s rest

/-- Number of occurrences of a token kind in an emitted token list. -/
def cntTok (t : TokenType) : List TokenType → Nat
  | [] => 0
  | x :: xs => cntTok t xs + (if x = t then 1 else 0)

/-- Conservation potential of a scanner state: open stack levels above the
base plus owed dedents. -/
def potential (s : Scanner) : Nat :=
  (s.indent_stack.length - 1) + s.dedent_count

/- ---------------------------------------------------------------------- -/
/- Serialization (tree_sitter_patto_external_scanner_serialize /
   tree_sitter_patto_external_scanner_deserialize).  The byte buffer is a
   `List Nat` of byte values; multi-byte fields are laid out little-endian
   (the host byte order under which the C `memcpy` of the integer fields
   is run). -/

/-- Little-endian bytes of a `uint16_t` value. -/
def le2 (n : Nat) : List Nat := [n % 256, n / 256 % 256]

/-- Little-endian bytes of a `uint32_t` value. -/
def le4 (n : Nat) : List Nat :=
  [n % 256, n / 256 % 256, n / 65536 % 256, n / 16777216 % 256]

/-- Read the byte at offset `i` of the buffer. -/
def rdByte (buf : List Nat) (i : Nat) : Nat := buf.getD i 0 % 256

/-- Read a little-endian `uint16_t` at offset `i`. -/
def rd2 (buf : List Nat) (i : Nat) : Nat :=
  rdByte buf i + 256 * rdByte buf (i + 1)

/-- Read a little-endian `uint32_t` at offset `i`. -/
def rd4 (buf : List Nat) (i : Nat) : Nat :=
  rdByte buf i + 256 * rdByte buf (i + 1) + 65536 * rdByte buf (i + 2) +
    16777216 * rdByte buf (i + 3)

/-- Read `k` consecutive `uint16_t` values from the front of a byte list
(the `memcpy` of `stack_bytes` into the `uint16_t` stack array). -/
def parseU16s : Nat → List Nat → List Nat
  | 0, _ => []
  | k + 1, bs => rd2 bs 0 :: parseU16s k (bs.drop 2)

/-- `tree_sitter_patto_external_scanner_serialize`: `stack_size`
(a `uint32_t`, 4 bytes), then the `stack_size` live `uint16_t` stack
entries bottom-first (hence the `reverse`), then `dedent_count`
(4 bytes), then `pending_indent` (4 bytes, two's complement).
The returned list is the written buffer; its length is the returned
byte count. -/
def scanner_serialize (s : Scanner) : List Nat :=
  le4 s.indent_stack.length ++ (s.indent_stack.reverse.map le2).flatten ++
    le4 s.dedent_count ++ le4 (s.pending_indent % 4294967296).toNat

/-- `tree_sitter_patto_external_scanner_deserialize`: reset, then read the
fields back with a bounds check before each read, resetting on a
truncated buffer or a `stack_size` outside `[1, MAX_INDENT_DEPTH]`.
The parsed bottom-first stack entries are reversed into our
top-at-head representation. -/
def scanner_deserialize (buf : List Nat) : Scanner :=
  if buf.length = 0 then scanner_reset
  else if buf.length < 4 then scanner_reset
  else
    let sz := rd4 buf 0
    if sz = 0 ∨ 256 < sz then scanner_reset
    else if buf.length < 4 + 2 * sz then scanner_reset
    else if buf.length < 4 + 2 * sz + 4 then scanner_reset
    else if buf.length < 4 + 2 * sz + 8 then scanner_reset
    else
      { indent_stack := (parseU16s sz (buf.drop 4)).reverse,
        dedent_count := rd4 buf (4 + 2 * sz),
        pending_indent := toI32 (rd4 buf (4 + 2 * sz + 4)) }

/-- The byte count implied by the serialized-state layout stated in the
specification (section 6): stack-size 2 bytes, 2 bytes per entry,
owed-dedent count 4 bytes, pending indent 4 bytes.  Stated from the
spec's words, for comparison with `scanner_serialize`. -/
def specLayoutBytes (stackSize : Nat) : Nat := 2 + 2 * stackSize + 4 + 4

/- ---------------------------------------------------------------------- -/
/- The newline-only degenerate scanner variant. -/

/-- Modelled from the spec: the newline-only degenerate scanner variant
(spec sections 2, 3 and 4.2) is part of this repository but its source
file is not under `src/`; only the full indentation scanner is.  Its
state is the single EOF-emitted latch. -/
structure NLScanner where
  eof_emitted : Bool
deriving DecidableEq, Repr

/-- Modelled from the spec (section 4.2): one scan step of the
newline-only variant.  At end-of-input it emits NEWLINE exactly once,
tracked by the latch; the latch resets whenever the scanner observes
further non-EOF input; on a line terminator it consumes it (carriage
return plus line feed counting as one) and emits NEWLINE; anything else,
or NEWLINE not admissible, is no match.  Returns
(matched, state, remaining input). -/
def nlscan (s : NLScanner) (input : List Nat) (vN : Bool) :
    Bool × NLScanner × List Nat :=
  match input with
  | [] =>
    if vN = true ∧ s.eof_emitted = false then (true, ⟨true⟩, [])
    else (false, s, [])
  | c :: rest =>
    if (c = 10 ∨ c = 13) ∧ vN = true then (true, ⟨false⟩, advance_newline (c :: rest))
    else (false, ⟨false⟩, c :: rest)

/- ---------------------------------------------------------------------- -/
/- Reachability and well-formedness. -/

/-- Scanner states reachable through creation, arbitrary scan steps and
deserialization of arbitrary byte buffers (the lifecycle offered to the
host). -/
inductive ReachableFull : Scanner → Prop where
  | create : ReachableFull scanner_reset
  | step : ∀ (s : Scanner) (input : List Nat) (vN vI vD : Bool)
      (t : TokenType) (s' : Scanner) (rest : List Nat),
      ReachableFull s → scan s input vN vI vD = some (t, s', rest) →
      ReachableFull s'
  | deser : ∀ buf : List Nat, ReachableFull (scanner_deserialize buf)

/-- `NoRun k l`: the input `l` contains no run of `k` consecutive tab
characters. -/
def NoRun (k : Nat) (l : List Nat) : Prop :=
  ∀ l₁ l₂ : List Nat, l ≠ l₁ ++ (List.replicate k 9 ++ l₂)

/-- `SufOf v l`: `v` is a suffix of `l`. -/
def SufOf (v l : List Nat) : Prop := ∃ u : List Nat, l = u ++ v

/-- Scanner states reachable through creation and scan steps over inputs
containing no run of 2^16 consecutive tabs (so no counted indentation
width overflows the `uint16_t` stack entries). -/
inductive ReachableScan : Scanner → Prop where
  | create : ReachableScan scanner_reset
  | step : ∀ (s : Scanner) (input : List Nat) (vN vI vD : Bool)
      (t : TokenType) (s' : Scanner) (rest : List Nat),
      ReachableScan s → NoRun 65536 input →
      scan s input vN vI vD = some (t, s', rest) →
      ReachableScan s'

/-- Well-formedness of a scanner state: field values representable in the
C types, stack size within `[1, MAX_INDENT_DEPTH]`. -/
def WF (s : Scanner) : Prop :=
  1 ≤ s.indent_stack.length ∧ s.indent_stack.length ≤ 256 ∧
    (∀ e ∈ s.indent_stack, e < 65536) ∧
    s.dedent_count < 4294967296 ∧
    -2147483648 ≤ s.pending_indent ∧ s.pending_indent < 2147483648

/-- Inductive invariant maintained by the all-kinds-admissible driver on
documents with no 256-tab run: stack strictly increasing from a bottom
of width 0, all widths at most 255, any pending indent at most 255 and
above the current top, at most 255 owed dedents. -/
def DriveInv (s : Scanner) : Prop :=
  s.indent_stack.getLast? = some 0 ∧
    List.Chain' (fun a b => b < a) s.indent_stack ∧
    (∀ e ∈ s.indent_stack, e ≤ 255) ∧
    (0 ≤ s.pending_indent →
      s.pending_indent.toNat ≤ 255 ∧ s.indent_stack.headD 0 < s.pending_indent.toNat) ∧
    s.dedent_count ≤ 255

/-- Structural invariant of the indentation stack under creation and
scanning of inputs whose tab runs fit a `uint16_t`: non-empty, bottom
entry 0, strictly increasing from the bottom (the list is strictly
decreasing from its head, the top), entries below 2^16, and any pending
indent below 2^16 and above the current top. -/
def Inv16 (s : Scanner) : Prop :=
  s.indent_stack ≠ [] ∧ s.indent_stack.getLast? = some 0 ∧
    List.Chain' (fun a b => b < a) s.indent_stack ∧
    (∀ e ∈ s.indent_stack, e < 65536) ∧
    (0 ≤ s.pending_indent →
      s.pending_indent.toNat < 65536 ∧ s.indent_stack.headD 0 < s.pending_indent.toNat)

/- ---------------------------------------------------------------------- -/
/- Concrete document families used for boundary behaviors. -/

/-- A document line carrying `w` tabs of indentation and the single
content byte `a` (0x61), preceded by its line-feed terminator. -/
def lineC (w : Nat) : List Nat := 10 :: (List.replicate w 9 ++ [97])

/-- Push a list of widths in order with the capped push. -/
def stackAfter (st : List Nat) (ws : List Nat) : List Nat :=
  ws.foldl pushCap st

/-- Each width in turn strictly exceeds the current stack top (as left by
the capped pushes of the previous widths). -/
def ascending : List Nat → List Nat → Bool
  | _, [] => true
  | st, w :: ws => decide (st.headD 0 < w) && ascending (pushCap st w) ws

/-- A staircase document whose indentation climbs through widths 1..256:
one more nesting level than `MAX_INDENT_DEPTH` allows. -/
def stairsDoc : List Nat := 97 :: ((List.range' 1 256).map lineC).flatten

/-- The token stream the staircase document produces: NEWLINE and INDENT
per line, then the end-of-input flush of 255 DEDENTs. -/
def stairToks : List TokenType :=
  (List.replicate 256 [TokenType.NEWLINE, TokenType.INDENT]).flatten ++
    List.replicate 255 TokenType.DEDENT

/- ---------------------------------------------------------------------- -/
/- Basic computation lemmas for the input-consuming helpers. -/

lemma advance_newline_lf (rest : List Nat) : advance_newline (10 :: rest) = rest := rfl

lemma skipCRs_not_cr (c : Nat) (cs : List Nat) (hc : c ≠ 13) :
    skipCRs (c :: cs) = c :: cs := by
  apply skipCRs.eq_3
  · intro r h
    exact hc (List.cons.injEq .. ▸ h).1
  · intro r h
    exact hc (List.cons.injEq .. ▸ h).1

lemma skipCRs_replicate_nine (w : Nat) (r : List Nat) (hr : r.headD 0 ≠ 13) :
    skipCRs (List.replicate w 9 ++ r) = List.replicate w 9 ++ r := by
  cases w with
  | zero =>
    simp only [List.replicate, List.nil_append]
    cases r with
    | nil => rfl
    | cons c cs => exact skipCRs_not_cr c cs (by simpa using hr)
  | succ w => exact skipCRs_not_cr 9 _ (by omega)

lemma countTabs_nine (rest : List Nat) :
    countTabs (9 :: rest) = ((countTabs rest).1 + 1, (countTabs rest).2) := rfl

lemma countTabs_not_nine (c : Nat) (rest : List Nat) (hc : c ≠ 9) :
    countTabs (c :: rest) = (0, c :: rest) := by
  apply countTabs.eq_2
  intro r h
  exact hc (List.cons.injEq .. ▸ h).1

lemma countTabs_replicate_append (n : Nat) (r : List Nat) (hr : r.headD 0 ≠ 9) :
    countTabs (List.replicate n 9 ++ r) = (n, r) := by
  induction n with
  | zero =>
    simp only [List.replicate, List.nil_append]
    cases r with
    | nil => rfl
    | cons c cs => exact countTabs_not_nine c cs (by simpa using hr)
  | succ n ih =>
    simp [List.replicate_succ, countTabs_nine, ih]

/-- Every stream splits as its counted leading tabs followed by the rest. -/
lemma countTabs_spec (l : List Nat) :
    l = List.replicate (countTabs l).1 9 ++ (countTabs l).2 := by
  induction l with
  | nil => rfl
  | cons c cs ih =>
    by_cases hc : c = 9
    · subst hc
      rw [countTabs_nine]
      simpa [List.replicate_succ] using ih
    · rw [countTabs_not_nine c cs hc]
      simp

/- ---------------------------------------------------------------------- -/
/- Suffix bookkeeping. -/

lemma sufOf_refl (l : List Nat) : SufOf l l := ⟨[], rfl⟩

lemma sufOf_trans {a b c : List Nat} (h₁ : SufOf a b) (h₂ : SufOf b c) : SufOf a c := by
  obtain ⟨u, hu⟩ := h₁
  obtain ⟨v, hv⟩ := h₂
  exact ⟨v ++ u, by simp [hv, hu]⟩

lemma sufOf_tail (c : Nat) (l : List Nat) : SufOf l (c :: l) := ⟨[c], rfl⟩

lemma advance_newline_suf (l : List Nat) : SufOf (advance_newline l) l := by
  rw [advance_newline.eq_def]
  split
  · exact ⟨[13, 10], rfl⟩
  · exact sufOf_tail _ _
  · exact ⟨[], rfl⟩

lemma skipCRs_suf (l : List Nat) : SufOf (skipCRs l) l := by
  induction l using skipCRs.induct with
  | case1 rest ih =>
    rw [skipCRs.eq_1]
    exact sufOf_trans ih ⟨[13, 10], rfl⟩
  | case2 rest h ih =>
    rw [skipCRs.eq_2 rest h]
    exact sufOf_trans ih ⟨[13], rfl⟩
  | case3 rest h1 h2 =>
    rw [skipCRs.eq_3 rest h1 h2]
    exact sufOf_refl rest

lemma countTabs_suf (l : List Nat) : SufOf (countTabs l).2 l := by
  induction l with
  | nil => exact sufOf_refl []
  | cons c cs ih =>
    by_cases hc : c = 9
    · subst hc
      rw [countTabs_nine]
      exact sufOf_trans ih ⟨[9], rfl⟩
    · rw [countTabs_not_nine c cs hc]
      exact sufOf_refl _

/-- The remaining input returned by a matching scan step is a suffix of
the input offered to it. -/
lemma scan_rest_suf (s : Scanner) (input : List Nat) (vN vI vD : Bool)
    (t : TokenType) (s' : Scanner) (rest : List Nat)
    (h : scan s input vN vI vD = some (t, s', rest)) : SufOf rest input := by
  rw [scan.eq_def] at h
  split at h
  · simp only [Option.some.injEq, Prod.mk.injEq] at h
    exact h.2.2 ▸ sufOf_refl input
  · split at h
    · simp only [Option.some.injEq, Prod.mk.injEq] at h
      exact h.2.2 ▸ sufOf_refl input
    · split at h
      · split at h
        · simp only [Option.some.injEq, Prod.mk.injEq] at h
          exact h.2.2 ▸ sufOf_refl []
        · exact absurd h (by simp)
      · split at h
        · simp only [Option.some.injEq, Prod.mk.injEq] at h
          exact h.2.2 ▸ sufOf_trans (countTabs_suf _)
            (sufOf_trans (skipCRs_suf _) (advance_newline_suf _))
        · exact absurd h (by simp)

/- ---------------------------------------------------------------------- -/
/- Tab-run bounds. -/

lemma noRun_of_short (k : Nat) (l : List Nat) (h : l.length < k) : NoRun k l := by
  intro l₁ l₂ heq
  have := congrArg List.length heq
  simp [List.length_append, List.length_replicate] at this
  omega

lemma noRun_suf (k : Nat) (l v : List Nat) (h : NoRun k l) (hs : SufOf v l) : NoRun k v := by
  obtain ⟨u, hu⟩ := hs
  intro l₁ l₂ heq
  exact h (u ++ l₁) l₂ (by rw [hu, heq, List.append_assoc])

/-- With no `k`-tab run in the stream, fewer than `k` leading tabs are
counted. -/
lemma countTabs_lt_of_noRun (k : Nat) (l : List Nat) (h : NoRun k l) :
    (countTabs l).1 < k := by
  by_contra hge
  push_neg at hge
  have hspec := countTabs_spec l
  have : (countTabs l).1 = k + ((countTabs l).1 - k) := by omega
  rw [this, List.replicate_add, List.append_assoc] at hspec
  exact h [] _ (by simpa using hspec)

/- ---------------------------------------------------------------------- -/
/- Arithmetic facts about the machine-integer casts. -/

lemma toI32_small (n : Nat) (h : n < 2147483648) : toI32 n = (n : Int) := by
  rw [toI32, if_pos]
  · rw [Nat.mod_eq_of_lt (by omega)]
  · rw [Nat.mod_eq_of_lt (by omega)]
    exact h

lemma toI32_bounds (n : Nat) : -2147483648 ≤ toI32 n ∧ toI32 n < 2147483648 := by
  rw [toI32]
  have h := Nat.mod_lt n (show 0 < 4294967296 by omega)
  split <;> constructor <;> omega

lemma u32_small (n : Nat) (h : n < 4294967296) : u32 n = n := Nat.mod_eq_of_lt h

lemma u16_small (n : Nat) (h : n < 65536) : u16 n = n := Nat.mod_eq_of_lt h

/- ---------------------------------------------------------------------- -/
/- The dedent loop: characterization and structural facts. -/

/-- With a bottom level of width at most `w`, the dedent loop pops exactly
the levels exceeding `w` (the `stack_size > 1` guard never binds), adding
one owed dedent per pop. -/
lemma popLevels_eq (w : Nat) (l : List Nat) (d : Nat) (b : Nat)
    (hb : l.getLast? = some b) (hbw : b ≤ w) (hd : d + l.length ≤ 4294967296) :
    popLevels w l d =
      (l.dropWhile (fun t => decide (w < t)),
       d + (l.takeWhile (fun t => decide (w < t))).length) := by
  induction l generalizing d with
  | nil => simp at hb
  | cons a l ih =>
    cases l with
    | nil =>
      simp only [List.getLast?_singleton, Option.some.injEq] at hb
      subst hb
      rw [popLevels.eq_def]
      simp only [List.dropWhile, List.takeWhile]
      have : ¬ w < a := by omega
      simp [this]
    | cons a' l' =>
      have hstep : popLevels w (a :: a' :: l') d =
          if w < a then popLevels w (a' :: l') ((d + 1) % 4294967296)
          else (a :: a' :: l', d) := rfl
      rw [hstep]
      by_cases hw : w < a
      · rw [if_pos hw]
        have hlast : (a' :: l').getLast? = some b := by
          rw [← hb]
          rfl
        have hmod : (d + 1) % 4294967296 = d + 1 := by
          simp only [List.length_cons] at hd
          exact Nat.mod_eq_of_lt (by omega)
        rw [hmod]
        rw [ih (d + 1) hlast (by simp only [List.length_cons] at hd ⊢; omega)]
        have hpa : decide (w < a) = true := decide_eq_true hw
        simp only [List.dropWhile_cons, List.takeWhile_cons, hpa, if_true,
          List.length_cons, Prod.mk.injEq]
        exact ⟨trivial, by omega⟩
      · rw [if_neg hw]
        have hpa : decide (w < a) = false := decide_eq_false hw
        simp only [List.dropWhile_cons, List.takeWhile_cons, hpa, Bool.false_eq_true,
          if_false, List.length_nil, Prod.mk.injEq]
        exact ⟨trivial, by simp⟩

lemma popLevels_suf (w : Nat) (l : List Nat) (d : Nat) :
    SufOf (popLevels w l d).1 l := by
  induction l generalizing d with
  | nil => exact sufOf_refl []
  | cons a l ih =>
    cases l with
    | nil => exact sufOf_refl [a]
    | cons a' l' =>
      have hstep : popLevels w (a :: a' :: l') d =
          if w < a then popLevels w (a' :: l') ((d + 1) % 4294967296)
          else (a :: a' :: l', d) := rfl
      rw [hstep]
      by_cases hw : w < a
      · rw [if_pos hw]
        exact sufOf_trans (ih _) (sufOf_tail a _)
      · rw [if_neg hw]
        exact sufOf_refl _

lemma popLevels_ne_nil (w : Nat) (l : List Nat) (d : Nat) (h : l ≠ []) :
    (popLevels w l d).1 ≠ [] := by
  induction l generalizing d with
  | nil => exact absurd rfl h
  | cons a l ih =>
    cases l with
    | nil => simp [popLevels]
    | cons a' l' =>
      have hstep : popLevels w (a :: a' :: l') d =
          if w < a then popLevels w (a' :: l') ((d + 1) % 4294967296)
          else (a :: a' :: l', d) := rfl
      rw [hstep]
      by_cases hw : w < a
      · rw [if_pos hw]
        exact ih _ (by simp)
      · rw [if_neg hw]
        simp

/- ---------------------------------------------------------------------- -/
/- Stack-shape helpers. -/

lemma mem_of_suf {v l : List Nat} (h : SufOf v l) {e : Nat} (he : e ∈ v) : e ∈ l := by
  obtain ⟨u, hu⟩ := h
  rw [hu]
  exact List.mem_append_right u he

lemma length_le_of_suf {v l : List Nat} (h : SufOf v l) : v.length ≤ l.length := by
  obtain ⟨u, hu⟩ := h
  rw [hu]
  simp

lemma chain'_of_suf {v l : List Nat} {R : Nat → Nat → Prop} (h : SufOf v l)
    (hc : List.Chain' R l) : List.Chain' R v := by
  obtain ⟨u, hu⟩ := h
  rw [hu] at hc
  exact (List.chain'_append.mp hc).2.1

lemma getLast?_of_suf {v l : List Nat} (h : SufOf v l) (hv : v ≠ []) :
    l.getLast? = v.getLast? := by
  obtain ⟨u, hu⟩ := h
  rw [hu, List.getLast?_append]
  cases hlast : v.getLast? with
  | none => exact absurd (List.getLast?_eq_none_iff.mp hlast) hv
  | some a => rfl

lemma getLast_mem_of_eq {l : List Nat} {b : Nat} (h : l.getLast? = some b) : b ∈ l := by
  induction l with
  | nil => simp at h
  | cons a l ih =>
    cases l with
    | nil =>
      simp only [List.getLast?_singleton, Option.some.injEq] at h
      simp [h]
    | cons a' l' =>
      have : (a :: a' :: l').getLast? = (a' :: l').getLast? := rfl
      rw [this] at h
      exact List.mem_cons_of_mem a (ih h)

/-- A strictly decreasing stack ending in 0 has length at most top + 1. -/
lemma stack_len_le (l : List Nat) (hc : List.Chain' (fun a b => b < a) l)
    (hb : l.getLast? = some 0) : l.length ≤ l.headD 0 + 1 := by
  induction l with
  | nil => simp
  | cons a l ih =>
    cases l with
    | nil => simp
    | cons a' l' =>
      have hab : a' < a := (List.chain'_cons.mp hc).1
      have hc' : List.Chain' (fun a b => b < a) (a' :: l') := (List.chain'_cons.mp hc).2
      have hb' : (a' :: l').getLast? = some 0 := by
        rw [← hb]
        rfl
      have := ih hc' hb'
      simp only [List.length_cons, List.headD_cons] at this ⊢
      omega

/- ---------------------------------------------------------------------- -/
/- Byte-buffer reading lemmas. -/

lemma rdByte_append_left (xs ys : List Nat) (i : Nat) (h : i < xs.length) :
    rdByte (xs ++ ys) i = rdByte xs i := by
  rw [rdByte, rdByte, List.getD_append xs ys 0 i h]

lemma rdByte_append_right (xs ys : List Nat) (i : Nat) :
    rdByte (xs ++ ys) (xs.length + i) = rdByte ys i := by
  rw [rdByte, rdByte, List.getD_append_right xs ys 0 (xs.length + i) (by omega),
    Nat.add_sub_cancel_left]

lemma rd4_append_left (xs ys : List Nat) (i : Nat) (h : i + 4 ≤ xs.length) :
    rd4 (xs ++ ys) i = rd4 xs i := by
  rw [rd4, rd4, rdByte_append_left xs ys i (by omega),
    rdByte_append_left xs ys (i + 1) (by omega),
    rdByte_append_left xs ys (i + 2) (by omega),
    rdByte_append_left xs ys (i + 3) (by omega)]

lemma rd4_append_right (xs ys : List Nat) :
    rd4 (xs ++ ys) xs.length = rd4 ys 0 := by
  rw [rd4, rd4]
  rw [show xs.length + 1 = xs.length + 1 from rfl]
  rw [show xs.length = xs.length + 0 from by omega, rdByte_append_right,
    show xs.length + 0 + 1 = xs.length + 1 from by omega, rdByte_append_right,
    show xs.length + 0 + 2 = xs.length + 2 from by omega, rdByte_append_right,
    show xs.length + 0 + 3 = xs.length + 3 from by omega, rdByte_append_right]

lemma mod256_mod256 (a : Nat) : a % 256 % 256 = a % 256 :=
  Nat.mod_mod_of_dvd a dvd_rfl

lemma rd4_le4_append (n : Nat) (rest : List Nat) (h : n < 4294967296) :
    rd4 (le4 n ++ rest) 0 = n := by
  show rd4 (n % 256 :: (n / 256 % 256 :: (n / 65536 % 256 :: (n / 16777216 % 256 :: rest)))) 0 = n
  rw [rd4]
  simp only [rdByte, List.getD_cons_zero, List.getD_cons_succ, mod256_mod256]
  omega

lemma le4_length (n : Nat) : (le4 n).length = 4 := rfl

lemma le2_length (n : Nat) : (le2 n).length = 2 := rfl

lemma flatten_map_le2_length (l : List Nat) :
    ((l.map le2).flatten).length = 2 * l.length := by
  induction l with
  | nil => rfl
  | cons x xs ih =>
    simp only [List.map_cons, List.flatten_cons, List.length_append, ih, le2_length,
      List.length_cons]
    omega

lemma rd2_le2_append (x : Nat) (rest : List Nat) (h : x < 65536) :
    rd2 (le2 x ++ rest) 0 = x := by
  show rd2 (x % 256 :: (x / 256 % 256 :: rest)) 0 = x
  rw [rd2]
  simp only [rdByte, List.getD_cons_zero, List.getD_cons_succ, mod256_mod256]
  omega

lemma parseU16s_length (k : Nat) (bs : List Nat) : (parseU16s k bs).length = k := by
  induction k generalizing bs with
  | zero => rfl
  | succ k ih => simp [parseU16s, ih]

/-- Reading back the concatenated 2-byte entries recovers the entry list,
whatever follows them in the buffer. -/
lemma parseU16s_flatten (l : List Nat) (post : List Nat) (h : ∀ e ∈ l, e < 65536) :
    parseU16s l.length ((l.map le2).flatten ++ post) = l := by
  induction l with
  | nil => rfl
  | cons x xs ih =>
    have hx : x < 65536 := h x (List.mem_cons_self x xs)
    simp only [List.map_cons, List.flatten_cons, List.length_cons]
    rw [List.append_assoc]
    rw [show parseU16s (xs.length + 1) (le2 x ++ ((List.map le2 xs).flatten ++ post)) =
        rd2 (le2 x ++ ((List.map le2 xs).flatten ++ post)) 0 ::
          parseU16s xs.length ((List.map le2 xs).flatten ++ post) from rfl]
    rw [rd2_le2_append x _ hx, ih (fun e he => h e (List.mem_cons_of_mem x he))]

/- ---------------------------------------------------------------------- -/
/- Serialize / deserialize round trip. -/

lemma serialize_length (s : Scanner) :
    (scanner_serialize s).length = 4 + 2 * s.indent_stack.length + 4 + 4 := by
  rw [scanner_serialize]
  simp only [List.length_append, le4_length, flatten_map_le2_length, List.length_reverse]

lemma toI32_emod_toNat (p : Int) (h₁ : -2147483648 ≤ p) (h₂ : p < 2147483648) :
    toI32 (p % 4294967296).toNat = p := by
  have hm : 0 ≤ p % 4294967296 := Int.emod_nonneg p (by omega)
  have hm2 : p % 4294967296 < 4294967296 := Int.emod_lt_of_pos p (by omega)
  have hpe : p % 4294967296 = p ∨ p % 4294967296 = p + 4294967296 := by omega
  rw [toI32]
  have hsm : (p % 4294967296).toNat % 4294967296 = (p % 4294967296).toNat := by
    apply Nat.mod_eq_of_lt
    omega
  rw [hsm]
  split <;> omega

/-- The four serialized fields of a well-formed state read back exactly,
at the offsets of the written layout. -/
lemma serialize_fields (s : Scanner) (h : WF s) :
    rd4 (scanner_serialize s) 0 = s.indent_stack.length ∧
    parseU16s s.indent_stack.length ((scanner_serialize s).drop 4) =
      s.indent_stack.reverse ∧
    rd4 (scanner_serialize s) (4 + 2 * s.indent_stack.length) = s.dedent_count ∧
    toI32 (rd4 (scanner_serialize s) (4 + 2 * s.indent_stack.length + 4)) =
      s.pending_indent := by
  obtain ⟨h1, h2, h3, h4, h5, h6⟩ := h
  set L := s.indent_stack.length with hL
  have hbuf : scanner_serialize s =
      le4 L ++ ((s.indent_stack.reverse.map le2).flatten ++
        (le4 s.dedent_count ++ le4 (s.pending_indent % 4294967296).toNat)) := by
    rw [scanner_serialize]
    simp [List.append_assoc]
  have hsz : rd4 (scanner_serialize s) 0 = L := by
    rw [hbuf]
    exact rd4_le4_append L _ (by omega)
  have hdrop : (scanner_serialize s).drop 4 =
      (s.indent_stack.reverse.map le2).flatten ++
        (le4 s.dedent_count ++ le4 (s.pending_indent % 4294967296).toNat) := by
    rw [hbuf]
    rw [show (4 : Nat) = (le4 L).length from rfl]
    exact List.drop_left _ _
  have hstack : parseU16s L ((scanner_serialize s).drop 4) = s.indent_stack.reverse := by
    rw [hdrop]
    rw [show L = s.indent_stack.reverse.length from by simp [hL]]
    exact parseU16s_flatten _ _ (fun e he => h3 e (List.mem_reverse.mp he))
  have hsplit1 : scanner_serialize s =
      (le4 L ++ (s.indent_stack.reverse.map le2).flatten) ++
        (le4 s.dedent_count ++ le4 (s.pending_indent % 4294967296).toNat) := by
    simp [hbuf, List.append_assoc]
  have hlen1 : (le4 L ++ (s.indent_stack.reverse.map le2).flatten).length = 4 + 2 * L := by
    simp only [List.length_append, le4_length, flatten_map_le2_length, List.length_reverse]
  have hded : rd4 (scanner_serialize s) (4 + 2 * L) = s.dedent_count := by
    rw [hsplit1, ← hlen1, rd4_append_right]
    exact rd4_le4_append _ _ h4
  have hsplit2 : scanner_serialize s =
      ((le4 L ++ (s.indent_stack.reverse.map le2).flatten) ++ le4 s.dedent_count) ++
        le4 (s.pending_indent % 4294967296).toNat := by
    simp [hbuf, List.append_assoc]
  have hlen2 : ((le4 L ++ (s.indent_stack.reverse.map le2).flatten) ++
      le4 s.dedent_count).length = 4 + 2 * L + 4 := by
    simp only [List.length_append, le4_length, flatten_map_le2_length, List.length_reverse]
  have hpend : rd4 (scanner_serialize s) (4 + 2 * L + 4) =
      (s.pending_indent % 4294967296).toNat := by
    rw [hsplit2, ← hlen2, rd4_append_right]
    rw [show le4 (s.pending_indent % 4294967296).toNat =
        le4 (s.pending_indent % 4294967296).toNat ++ [] from by simp]
    apply rd4_le4_append
    have hm : 0 ≤ s.pending_indent % 4294967296 := Int.emod_nonneg _ (by omega)
    have hm2 : s.pending_indent % 4294967296 < 4294967296 := Int.emod_lt_of_pos _ (by omega)
    omega
  exact ⟨hsz, hstack, hded, by rw [hpend]; exact toI32_emod_toNat _ h5 h6⟩

/-- Serializing a well-formed state and deserializing the result restores
every field exactly. -/
lemma roundtrip_wf (s : Scanner) (h : WF s) :
    scanner_deserialize (scanner_serialize s) = s := by
  obtain ⟨hsz, hstack, hded, hpend⟩ := serialize_fields s h
  obtain ⟨h1, h2, h3, h4, h5, h6⟩ := h
  have hlen := serialize_length s
  rw [scanner_deserialize]
  rw [if_neg (by omega), if_neg (by omega)]
  simp only [hsz]
  rw [if_neg (by omega), if_neg (by omega), if_neg (by omega), if_neg (by omega)]
  rw [hstack, hded, hpend, List.reverse_reverse]

/- ---------------------------------------------------------------------- -/
/- Case analysis of a matching scan step. -/

/-- Exhaustive description of the four ways a scan call can report a
match, in the priority order of the C code. -/
lemma scan_cases (s : Scanner) (input : List Nat) (vN vI vD : Bool)
    (t : TokenType) (s' : Scanner) (rest : List Nat)
    (h : scan s input vN vI vD = some (t, s', rest)) :
    (0 < s.dedent_count ∧ vD = true ∧ t = TokenType.DEDENT ∧
      s' = { s with dedent_count := s.dedent_count - 1 } ∧ rest = input) ∨
    (¬ (0 < s.dedent_count ∧ vD = true) ∧ 0 ≤ s.pending_indent ∧ vI = true ∧
      t = TokenType.INDENT ∧
      s' = { s with indent_stack := pushCap s.indent_stack (u16 s.pending_indent.toNat),
                    pending_indent := -1 } ∧ rest = input) ∨
    (¬ (0 < s.dedent_count ∧ vD = true) ∧ ¬ (0 ≤ s.pending_indent ∧ vI = true) ∧
      input = [] ∧ vD = true ∧ 1 < s.indent_stack.length ∧ t = TokenType.DEDENT ∧
      s' = { s with indent_stack := s.indent_stack.tail } ∧ rest = []) ∨
    (¬ (0 < s.dedent_count ∧ vD = true) ∧ ¬ (0 ≤ s.pending_indent ∧ vI = true) ∧
      ∃ c r, input = c :: r ∧ (c = 10 ∨ c = 13) ∧ vN = true ∧ t = TokenType.NEWLINE ∧
        s' = scanIndentUpdate s (countTabs (skipCRs (advance_newline (c :: r)))).1
               (countTabs (skipCRs (advance_newline (c :: r)))).2 ∧
        rest = (countTabs (skipCRs (advance_newline (c :: r)))).2) := by
  rw [scan.eq_def] at h
  split at h
  · rename_i hc
    simp only [Option.some.injEq, Prod.mk.injEq] at h
    exact Or.inl ⟨hc.1, hc.2, h.1.symm, h.2.1.symm, h.2.2.symm⟩
  · split at h
    · rename_i hc1 hc2
      simp only [Option.some.injEq, Prod.mk.injEq] at h
      exact Or.inr (Or.inl ⟨hc1, hc2.1, hc2.2, h.1.symm, h.2.1.symm, h.2.2.symm⟩)
    · rename_i hc1 hc2
      split at h
      · split at h
        · rename_i hc3
          simp only [Option.some.injEq, Prod.mk.injEq] at h
          exact Or.inr (Or.inr (Or.inl
            ⟨hc1, hc2, rfl, hc3.1, hc3.2, h.1.symm, h.2.1.symm, h.2.2.symm⟩))
        · exact absurd h (by simp)
      · rename_i c r
        split at h
        · rename_i hc3
          simp only [Option.some.injEq, Prod.mk.injEq] at h
          exact Or.inr (Or.inr (Or.inr
            ⟨hc1, hc2, c, r, rfl, hc3.1, hc3.2, h.1.symm, h.2.1.symm, h.2.2.symm⟩))
        · exact absurd h (by simp)

/- ---------------------------------------------------------------------- -/
/- Well-formedness is preserved by the whole lifecycle. -/

lemma wf_reset : WF scanner_reset := by
  refine ⟨by simp [scanner_reset], by simp [scanner_reset], ?_, by simp [scanner_reset],
    by simp [scanner_reset], by simp [scanner_reset]⟩
  intro e he
  simp [scanner_reset] at he
  omega

lemma rdByte_lt (buf : List Nat) (i : Nat) : rdByte buf i < 256 :=
  Nat.mod_lt _ (by omega)

lemma rd2_lt (buf : List Nat) (i : Nat) : rd2 buf i < 65536 := by
  have h1 := rdByte_lt buf i
  have h2 := rdByte_lt buf (i + 1)
  rw [rd2]
  omega

lemma rd4_lt (buf : List Nat) (i : Nat) : rd4 buf i < 4294967296 := by
  have h1 := rdByte_lt buf i
  have h2 := rdByte_lt buf (i + 1)
  have h3 := rdByte_lt buf (i + 2)
  have h4 := rdByte_lt buf (i + 3)
  rw [rd4]
  omega

lemma parseU16s_mem_lt (k : Nat) (bs : List Nat) (e : Nat)
    (he : e ∈ parseU16s k bs) : e < 65536 := by
  induction k generalizing bs with
  | zero => simp [parseU16s] at he
  | succ k ih =>
    simp only [parseU16s, List.mem_cons] at he
    rcases he with he | he
    · exact he ▸ rd2_lt bs 0
    · exact ih _ he

lemma popLevels_count_lt (w : Nat) (l : List Nat) (d : Nat) (hd : d < 4294967296) :
    (popLevels w l d).2 < 4294967296 := by
  induction l generalizing d with
  | nil => exact hd
  | cons a l ih =>
    cases l with
    | nil => exact hd
    | cons a' l' =>
      have hstep : popLevels w (a :: a' :: l') d =
          if w < a then popLevels w (a' :: l') ((d + 1) % 4294967296)
          else (a :: a' :: l', d) := rfl
      rw [hstep]
      by_cases hw : w < a
      · rw [if_pos hw]
        exact ih _ (Nat.mod_lt _ (by omega))
      · rw [if_neg hw]
        exact hd

lemma wf_scanIndentUpdate (s : Scanner) (n : Nat) (r : List Nat) (h : WF s) :
    WF (scanIndentUpdate s n r) := by
  obtain ⟨h1, h2, h3, h4, h5, h6⟩ := h
  simp only [scanIndentUpdate]
  split
  · exact ⟨h1, h2, h3, h4, h5, h6⟩
  · split
    · exact ⟨h1, h2, h3, h4, (toI32_bounds n).1, (toI32_bounds n).2⟩
    · split
      · have hsuf := popLevels_suf (u32 n) s.indent_stack s.dedent_count
        have hne := popLevels_ne_nil (u32 n) s.indent_stack s.dedent_count
          (by intro hnil; rw [hnil] at h1; simp at h1)
        split
        · exact ⟨List.length_pos.mpr hne, le_trans (length_le_of_suf hsuf) h2,
            fun e he => h3 e (mem_of_suf hsuf he), popLevels_count_lt _ _ _ h4,
            (toI32_bounds n).1, (toI32_bounds n).2⟩
        · exact ⟨List.length_pos.mpr hne, le_trans (length_le_of_suf hsuf) h2,
            fun e he => h3 e (mem_of_suf hsuf he), popLevels_count_lt _ _ _ h4, h5, h6⟩
      · exact ⟨h1, h2, h3, h4, h5, h6⟩

/-- Any matching scan step preserves well-formedness. -/
lemma wf_scan (s : Scanner) (input : List Nat) (vN vI vD : Bool)
    (t : TokenType) (s' : Scanner) (rest : List Nat)
    (h : scan s input vN vI vD = some (t, s', rest)) (hw : WF s) : WF s' := by
  obtain ⟨h1, h2, h3, h4, h5, h6⟩ := hw
  rcases scan_cases s input vN vI vD t s' rest h with
    ⟨_, _, _, hs, _⟩ | ⟨_, _, _, _, hs, _⟩ | ⟨_, _, _, _, hlen, _, hs, _⟩ |
    ⟨_, _, c, r, _, _, _, _, hs, _⟩
  · exact hs ▸ ⟨h1, h2, h3, by simp; omega, h5, h6⟩
  · subst hs
    refine ⟨?_, ?_, ?_, h4, by simp, by simp⟩
    · rw [pushCap]
      split
      · simp
      · exact h1
    · rw [pushCap]
      split
      · simpa using (by omega : s.indent_stack.length + 1 ≤ 256)
      · exact h2
    · intro e he
      rw [pushCap] at he
      split at he
      · rcases List.mem_cons.mp he with he | he
        · rw [he, u16]
          exact Nat.mod_lt _ (by omega)
        · exact h3 e he
      · exact h3 e he
  · subst hs
    refine ⟨?_, ?_, ?_, h4, h5, h6⟩
    · simp only [Scanner.mk.injEq] at *
      rw [List.length_tail]
      omega
    · rw [List.length_tail]
      omega
    · intro e he
      exact h3 e (List.mem_of_mem_tail he)
  · exact hs ▸ wf_scanIndentUpdate s _ _ ⟨h1, h2, h3, h4, h5, h6⟩

/-- Deserialization yields a well-formed state from any byte buffer. -/
lemma wf_deser (buf : List Nat) : WF (scanner_deserialize buf) := by
  simp only [scanner_deserialize]
  split
  · exact wf_reset
  · split
    · exact wf_reset
    · split
      · exact wf_reset
      · split
        · exact wf_reset
        · split
          · exact wf_reset
          · split
            · exact wf_reset
            · rename_i hns h4 hsz hst hde hpe
              refine ⟨?_, ?_, ?_, rd4_lt buf _, (toI32_bounds _).1, (toI32_bounds _).2⟩
              · simp only [List.length_reverse, parseU16s_length]
                omega
              · simp only [List.length_reverse, parseU16s_length]
                omega
              · intro e he
                rw [List.mem_reverse] at he
                exact parseU16s_mem_lt _ _ e he

/-- Every reachable state is well-formed. -/
lemma wf_reachable (s : Scanner) (h : ReachableFull s) : WF s := by
  induction h with
  | create => exact wf_reset
  | step s input vN vI vD t s' rest _ hscan ih => exact wf_scan s input vN vI vD t s' rest hscan ih
  | deser buf => exact wf_deser buf

/- ---------------------------------------------------------------------- -/
/- Deserialization: success branch, fallback branch, and indifference to
   trailing bytes. -/

lemma rd2_append_left (xs ys : List Nat) (i : Nat) (h : i + 2 ≤ xs.length) :
    rd2 (xs ++ ys) i = rd2 xs i := by
  rw [rd2, rd2, rdByte_append_left xs ys i (by omega),
    rdByte_append_left xs ys (i + 1) (by omega)]

lemma parseU16s_append_left (k : Nat) (bs post : List Nat) (h : 2 * k ≤ bs.length) :
    parseU16s k (bs ++ post) = parseU16s k bs := by
  induction k generalizing bs with
  | zero => rfl
  | succ k ih =>
    simp only [parseU16s]
    rw [rd2_append_left bs post 0 (by omega),
      List.drop_append_of_le_length (by omega : 2 ≤ bs.length),
      ih (bs.drop 2) (by rw [List.length_drop]; omega)]

/-- Unfolding of deserialization when every bounds check passes. -/
lemma deser_success (buf : List Nat) (h1 : 1 ≤ rd4 buf 0) (h2 : rd4 buf 0 ≤ 256)
    (h3 : 4 + 2 * rd4 buf 0 + 8 ≤ buf.length) :
    scanner_deserialize buf =
      { indent_stack := (parseU16s (rd4 buf 0) (buf.drop 4)).reverse,
        dedent_count := rd4 buf (4 + 2 * rd4 buf 0),
        pending_indent := toI32 (rd4 buf (4 + 2 * rd4 buf 0 + 4)) } := by
  simp only [scanner_deserialize]
  rw [if_neg (by omega), if_neg (by omega), if_neg (by omega), if_neg (by omega),
    if_neg (by omega), if_neg (by omega)]

/-- Unfolding of deserialization when a bounds check fails: reset. -/
lemma deser_fallback (buf : List Nat)
    (h : buf.length < 4 ∨ rd4 buf 0 = 0 ∨ 256 < rd4 buf 0 ∨
      buf.length < 4 + 2 * rd4 buf 0 + 8) :
    scanner_deserialize buf = scanner_reset := by
  simp only [scanner_deserialize]
  by_cases h0 : buf.length = 0
  · rw [if_pos h0]
  · rw [if_neg h0]
    by_cases h4 : buf.length < 4
    · rw [if_pos h4]
    · rw [if_neg h4]
      by_cases hsz : rd4 buf 0 = 0 ∨ 256 < rd4 buf 0
      · rw [if_pos hsz]
      · rw [if_neg hsz]
        push_neg at hsz
        by_cases hst : buf.length < 4 + 2 * rd4 buf 0
        · rw [if_pos hst]
        · rw [if_neg hst]
          by_cases hde : buf.length < 4 + 2 * rd4 buf 0 + 4
          · rw [if_pos hde]
          · rw [if_neg hde]
            rw [if_pos (by omega)]

/-- The indentation stack left by deserialization is never empty and holds
at most `MAX_INDENT_DEPTH` entries. -/
lemma deser_stack_size (buf : List Nat) :
    (scanner_deserialize buf).indent_stack ≠ [] ∧
      1 ≤ (scanner_deserialize buf).indent_stack.length ∧
      (scanner_deserialize buf).indent_stack.length ≤ 256 := by
  have hwf := wf_deser buf
  obtain ⟨h1, h2, _⟩ := hwf
  exact ⟨fun hnil => by rw [hnil] at h1; simp at h1, h1, h2⟩

/-- Bytes beyond the fields announced by the stack-size header are never
read: appending anything to a buffer that already holds all fields does
not change the deserialized state. -/
lemma deser_append_extra (buf extra : List Nat) (h1 : 1 ≤ rd4 buf 0)
    (h2 : rd4 buf 0 ≤ 256) (h3 : 4 + 2 * rd4 buf 0 + 8 ≤ buf.length) :
    scanner_deserialize (buf ++ extra) = scanner_deserialize buf := by
  have hsz : rd4 (buf ++ extra) 0 = rd4 buf 0 :=
    rd4_append_left buf extra 0 (by omega)
  have hlen : buf.length ≤ (buf ++ extra).length := by
    simp
  rw [deser_success buf h1 h2 h3,
    deser_success (buf ++ extra) (by omega) (by omega) (by simp [hsz]; omega)]
  rw [hsz]
  have hdrop : (buf ++ extra).drop 4 = buf.drop 4 ++ extra :=
    List.drop_append_of_le_length (by omega)
  rw [hdrop, parseU16s_append_left _ _ _ (by rw [List.length_drop]; omega)]
  rw [rd4_append_left buf extra (4 + 2 * rd4 buf 0) (by omega),
    rd4_append_left buf extra (4 + 2 * rd4 buf 0 + 4) (by omega)]

/- ---------------------------------------------------------------------- -/
/- Driver unfolding and the end-of-input flush. -/

lemma driveDoc_step_some (fuel : Nat) (s : Scanner) (input : List Nat)
    (t : TokenType) (s' : Scanner) (rest : List Nat) (ts : List TokenType) (sf : Scanner)
    (h : scan s input true true true = some (t, s', rest))
    (hd : driveDoc fuel s' rest = some (ts, sf)) :
    driveDoc (fuel + 1) s input = some (t :: ts, sf) := by
  simp only [driveDoc, h, hd]

lemma driveDoc_none_nil (fuel : Nat) (s : Scanner)
    (h : scan s [] true true true = none) :
    driveDoc (fuel + 1) s [] = some ([], s) := by
  simp only [driveDoc, h]

lemma driveDoc_none_cons (fuel : Nat) (s : Scanner) (c : Nat) (r : List Nat)
    (h : scan s (c :: r) true true true = none) :
    driveDoc (fuel + 1) s (c :: r) = driveDoc fuel s r := by
  simp only [driveDoc, h]

lemma scan_eof_pop (s : Scanner) (vN vI : Bool) (hd : s.dedent_count = 0)
    (hp : s.pending_indent < 0) (hlen : 1 < s.indent_stack.length) :
    scan s [] vN vI true =
      some (TokenType.DEDENT, { s with indent_stack := s.indent_stack.tail }, []) := by
  rw [scan.eq_def]
  rw [if_neg (by omega), if_neg (by push_neg; intro h; omega)]
  rw [if_pos ⟨rfl, hlen⟩]

lemma scan_eof_none (s : Scanner) (vN vI vD : Bool) (hd : s.dedent_count = 0)
    (hp : s.pending_indent < 0) (hlen : s.indent_stack.length ≤ 1) :
    scan s [] vN vI vD = none := by
  rw [scan.eq_def]
  rw [if_neg (by omega), if_neg (by push_neg; intro h; omega)]
  rw [if_neg (by push_neg; intro h; omega)]

/-- Driving the scanner at end-of-input with no owed dedents and no
pending indent emits one DEDENT per open level above the base, one per
call, then reports no match, leaving only the bottom entry. -/
lemma drive_eof_flush (l : List Nat) : ∀ (fuel : Nat) (s : Scanner),
    s.indent_stack = l → s.dedent_count = 0 → s.pending_indent < 0 → l ≠ [] →
    l.length ≤ fuel →
    driveDoc fuel s [] =
      some (List.replicate (l.length - 1) TokenType.DEDENT,
        { s with indent_stack := [l.getLastD 0] }) := by
  induction l with
  | nil => exact fun _ _ _ _ _ hne _ => absurd rfl hne
  | cons a l ih =>
    intro fuel s hst hd hp _ hfuel
    cases l with
    | nil =>
      obtain ⟨fuel, rfl⟩ : ∃ m, fuel = m + 1 := ⟨fuel - 1, by simp at hfuel; omega⟩
      rw [driveDoc_none_nil fuel s (scan_eof_none s true true true hd hp (by rw [hst]; simp))]
      obtain ⟨st, dc, pi⟩ := s
      simp only at hst
      subst hst
      simp
    | cons a' l' =>
      obtain ⟨fuel, rfl⟩ : ∃ m, fuel = m + 1 := ⟨fuel - 1, by simp at hfuel; omega⟩
      have hpop : scan s [] true true true =
          some (TokenType.DEDENT, { s with indent_stack := a' :: l' }, []) := by
        have h := scan_eof_pop s true true hd hp (by rw [hst]; simp)
        rw [hst] at h
        exact h
      have hnext := ih fuel { s with indent_stack := a' :: l' } rfl hd hp (by simp)
        (by simp at hfuel ⊢; omega)
      rw [driveDoc_step_some fuel s [] TokenType.DEDENT
        { s with indent_stack := a' :: l' } [] _ _ hpop hnext]
      obtain ⟨st, dc, pi⟩ := s
      simp [List.getLastD_cons, List.replicate_succ]

/- ====================================================================== -/
/- Claim theorems. -/

/-- C1: at end-of-input (after the final line's NEWLINE, with no owed
dedents and no pending indent), every scan call with DEDENT admissible
and more than the base level on the stack pops exactly one level and
emits one DEDENT, consuming no input; repeated calls emit one DEDENT
each until only the base level remains, after which every scan call at
end-of-input reports no match. -/
theorem scan_eof_flush (s : Scanner) (fuel : Nat) (vN vI : Bool)
    (hd : s.dedent_count = 0) (hp : s.pending_indent < 0)
    (hne : s.indent_stack ≠ []) (hfuel : s.indent_stack.length ≤ fuel) :
    (1 < s.indent_stack.length →
      scan s [] vN vI true =
        some (TokenType.DEDENT, { s with indent_stack := s.indent_stack.tail }, [])) ∧
    (s.indent_stack.length = 1 → ∀ vD : Bool, scan s [] vN vI vD = none) ∧
    driveDoc fuel s [] =
      some (List.replicate (s.indent_stack.length - 1) TokenType.DEDENT,
        { s with indent_stack := [s.indent_stack.getLastD 0] }) :=
  ⟨fun h => scan_eof_pop s vN vI hd hp h,
   fun h vD => scan_eof_none s vN vI vD hd hp (by omega),
   drive_eof_flush s.indent_stack fuel s rfl hd hp hne hfuel⟩

/-- C1 witness: a stack with one open level above the base flushes with
exactly one DEDENT, then reports no match. -/
theorem scan_eof_flush_w :
    scan ⟨[2, 0], 0, -1⟩ [] false false true =
      some (TokenType.DEDENT, ⟨[0], 0, -1⟩, []) ∧
    scan ⟨[0], 0, -1⟩ [] false false true = none ∧
    driveDoc 2 ⟨[2, 0], 0, -1⟩ [] = some ([TokenType.DEDENT], ⟨[0], 0, -1⟩) :=
  ⟨(scan_eof_flush ⟨[2, 0], 0, -1⟩ 2 false false rfl (by decide) (by decide)
      (by decide)).1 (by decide),
   (scan_eof_flush ⟨[0], 0, -1⟩ 1 false false rfl (by decide) (by decide)
      (by decide)).2.1 rfl true,
   (scan_eof_flush ⟨[2, 0], 0, -1⟩ 2 false false rfl (by decide) (by decide)
      (by decide)).2.2⟩

/-- C6: serializing any reachable scanner state and deserializing the
produced buffer restores an identical state (stack, owed-dedent count
and pending indent). -/
theorem serialize_roundtrip_reachable (s : Scanner) (h : ReachableFull s) :
    scanner_deserialize (scanner_serialize s) = s :=
  roundtrip_wf s (wf_reachable s h)

/-- C6 witness: the round trip at the state created by `scanner_reset`. -/
theorem serialize_roundtrip_reachable_w :
    scanner_deserialize (scanner_serialize scanner_reset) = scanner_reset :=
  serialize_roundtrip_reachable scanner_reset ReachableFull.create

/-- C7 counterexample: deserialization does NOT reset on every length
mismatch.  A valid 14-byte encoding with one extra trailing byte has a
length that matches no encoded-field total, yet the scanner accepts the
prefix instead of falling back to the reset state. -/
theorem deser_long_buffer_cx :
    scanner_deserialize [1, 0, 0, 0, 7, 0, 2, 0, 0, 0, 5, 0, 0, 0, 99] =
      { indent_stack := [7], dedent_count := 2, pending_indent := 5 } ∧
    scanner_deserialize [1, 0, 0, 0, 7, 0, 2, 0, 0, 0, 5, 0, 0, 0, 99] ≠ scanner_reset ∧
    ([1, 0, 0, 0, 7, 0, 2, 0, 0, 0, 5, 0, 0, 0, 99] : List Nat).length ≠ 4 + 2 * 1 + 8 := by
  refine ⟨by decide, by decide, by decide⟩

/-- C7 (amended): deserialization always succeeds and never reads past
the announced fields: a buffer too short for its encoded fields, or with
a stack-size field outside [1, 256], resets to the default state; bytes
beyond the encoded fields are ignored (appending them changes nothing). -/
theorem deser_robust_fallback :
    (∀ buf : List Nat, buf.length < 4 ∨ rd4 buf 0 = 0 ∨ 256 < rd4 buf 0 ∨
        buf.length < 4 + 2 * rd4 buf 0 + 8 → scanner_deserialize buf = scanner_reset) ∧
    (∀ buf extra : List Nat, 1 ≤ rd4 buf 0 → rd4 buf 0 ≤ 256 →
        4 + 2 * rd4 buf 0 + 8 ≤ buf.length →
        scanner_deserialize (buf ++ extra) = scanner_deserialize buf) :=
  ⟨deser_fallback, deser_append_extra⟩

/-- C7 witness: a short buffer resets; a complete buffer with one junk
byte appended deserializes as without it. -/
theorem deser_robust_fallback_w :
    scanner_deserialize [9] = scanner_reset ∧
    scanner_deserialize ([1, 0, 0, 0, 7, 0, 2, 0, 0, 0, 5, 0, 0, 0] ++ [99]) =
      scanner_deserialize [1, 0, 0, 0, 7, 0, 2, 0, 0, 0, 5, 0, 0, 0] :=
  ⟨deser_robust_fallback.1 [9] (by decide),
   deser_robust_fallback.2 [1, 0, 0, 0, 7, 0, 2, 0, 0, 0, 5, 0, 0, 0] [99]
     (by decide) (by decide) (by decide)⟩

/-- C8 counterexample: the serialized stack-size field is 4 bytes (the C
`stack_size` is a `uint32_t`), not 2: already for the reset state the
byte count written by serialize is 14, not the 12 the spec's layout
(2-byte size field) implies. -/
theorem serialize_size_field_cx :
    (scanner_serialize scanner_reset).length = 14 ∧
    specLayoutBytes scanner_reset.indent_stack.length = 12 ∧
    (scanner_serialize scanner_reset).length ≠
      specLayoutBytes scanner_reset.indent_stack.length := by
  refine ⟨by decide, by decide, by decide⟩

/-- C8 (amended): the serialized state is laid out in fixed order as a
4-byte stack-size, 2 bytes per stack entry (bottom first), a 4-byte
owed-dedent count and a 4-byte two's-complement pending indent (negative
meaning none); serialize writes exactly that byte count and deserialize
reads the same fields back at the same offsets. -/
theorem serialize_layout_fields (s : Scanner) (h : WF s) :
    (scanner_serialize s).length = 4 + 2 * s.indent_stack.length + 4 + 4 ∧
    rd4 (scanner_serialize s) 0 = s.indent_stack.length ∧
    parseU16s s.indent_stack.length ((scanner_serialize s).drop 4) =
      s.indent_stack.reverse ∧
    rd4 (scanner_serialize s) (4 + 2 * s.indent_stack.length) = s.dedent_count ∧
    toI32 (rd4 (scanner_serialize s) (4 + 2 * s.indent_stack.length + 4)) =
      s.pending_indent ∧
    scanner_deserialize (scanner_serialize s) = s := by
  obtain ⟨hsz, hstack, hded, hpend⟩ := serialize_fields s h
  exact ⟨serialize_length s, hsz, hstack, hded, hpend, roundtrip_wf s h⟩

/-- C8 witness: the layout at a sample well-formed state. -/
theorem serialize_layout_fields_w :
    (scanner_serialize ⟨[4, 2, 0], 3, 1⟩).length = 4 + 2 * 3 + 4 + 4 ∧
    rd4 (scanner_serialize ⟨[4, 2, 0], 3, 1⟩) 0 = 3 ∧
    parseU16s 3 ((scanner_serialize ⟨[4, 2, 0], 3, 1⟩).drop 4) = [0, 2, 4] ∧
    rd4 (scanner_serialize ⟨[4, 2, 0], 3, 1⟩) (4 + 2 * 3) = 3 ∧
    toI32 (rd4 (scanner_serialize ⟨[4, 2, 0], 3, 1⟩) (4 + 2 * 3 + 4)) = 1 ∧
    scanner_deserialize (scanner_serialize ⟨[4, 2, 0], 3, 1⟩) = ⟨[4, 2, 0], 3, 1⟩ := by
  have h := serialize_layout_fields ⟨[4, 2, 0], 3, 1⟩
    ⟨by decide, by decide, by decide, by decide, by decide, by decide⟩
  exact h

/-- C9: a reported match always carries a kind that is admissible in the
bitset passed to that scan call; a kind outside the set is never
reported. -/
theorem scan_kind_admissible (s : Scanner) (input : List Nat) (vN vI vD : Bool)
    (t : TokenType) (s' : Scanner) (rest : List Nat)
    (h : scan s input vN vI vD = some (t, s', rest)) :
    (t = TokenType.NEWLINE → vN = true) ∧ (t = TokenType.INDENT → vI = true) ∧
      (t = TokenType.DEDENT → vD = true) := by
  rcases scan_cases s input vN vI vD t s' rest h with
    ⟨_, hvD, ht, _, _⟩ | ⟨_, _, hvI, ht, _, _⟩ | ⟨_, _, _, hvD, _, ht, _, _⟩ |
    ⟨_, _, c, r, _, _, hvN, ht, _, _⟩
  · subst ht
    exact ⟨fun hx => TokenType.noConfusion hx, fun hx => TokenType.noConfusion hx,
      fun _ => hvD⟩
  · subst ht
    exact ⟨fun hx => TokenType.noConfusion hx, fun _ => hvI,
      fun hx => TokenType.noConfusion hx⟩
  · subst ht
    exact ⟨fun hx => TokenType.noConfusion hx, fun hx => TokenType.noConfusion hx,
      fun _ => hvD⟩
  · subst ht
    exact ⟨fun _ => hvN, fun hx => TokenType.noConfusion hx,
      fun hx => TokenType.noConfusion hx⟩

/-- C9 witness: a NEWLINE match under a NEWLINE-only bitset. -/
theorem scan_kind_admissible_w :
    (TokenType.NEWLINE = TokenType.NEWLINE → (true : Bool) = true) ∧
    (TokenType.NEWLINE = TokenType.INDENT → (false : Bool) = true) ∧
    (TokenType.NEWLINE = TokenType.DEDENT → (false : Bool) = true) :=
  scan_kind_admissible scanner_reset [10] true false false TokenType.NEWLINE
    scanner_reset [] rfl

/- ---------------------------------------------------------------------- -/
/- Evaluation of a scan step on a line-feed line with a known tab run. -/

/-- A scan step on a line-feed followed by `n` tabs and a character that
is neither tab, terminator nor NUL: emits NEWLINE and applies the
indentation update with counted width `n`, stopping right before that
character. -/
lemma scan_lf_line (s : Scanner) (n d : Nat) (ds : List Nat) (vI vD : Bool)
    (hd : s.dedent_count = 0) (hp : s.pending_indent < 0)
    (h9 : d ≠ 9) (h13 : d ≠ 13) :
    scan s (10 :: (List.replicate n 9 ++ d :: ds)) true vI vD =
      some (TokenType.NEWLINE, scanIndentUpdate s n (d :: ds), d :: ds) := by
  rw [scan.eq_def]
  rw [if_neg (by omega), if_neg (by push_neg; intro h; omega)]
  show (if ((10 : Nat) = 10 ∨ (10 : Nat) = 13) ∧ true = true then _ else _) = _
  rw [if_pos ⟨Or.inl rfl, rfl⟩]
  rw [advance_newline_lf,
    skipCRs_replicate_nine n (d :: ds) (by simpa using h13),
    countTabs_replicate_append n (d :: ds) (by simpa using h9)]

/-- C2: when a non-blank line's counted tab width is strictly below the
stack top, the scan step pops exactly the levels exceeding the counted
width, adds one owed dedent per popped level, and sets pending-indent to
the counted width exactly when the new top is still strictly below it. -/
theorem scan_dedent_pops (s : Scanner) (n d : Nat) (ds : List Nat) (vI vD : Bool)
    (hd : s.dedent_count = 0) (hp : s.pending_indent < 0)
    (hb : s.indent_stack.getLast? = some 0)
    (hlen : s.indent_stack.length < 4294967296)
    (h9 : d ≠ 9) (h13 : d ≠ 13) (h10 : d ≠ 10) (h0 : d ≠ 0)
    (hlt : u32 n < s.indent_stack.headD 0) :
    scan s (10 :: (List.replicate n 9 ++ d :: ds)) true vI vD =
      some (TokenType.NEWLINE,
        { s with
            indent_stack := s.indent_stack.dropWhile (fun t => decide (u32 n < t)),
            dedent_count := s.dedent_count +
              (s.indent_stack.takeWhile (fun t => decide (u32 n < t))).length,
            pending_indent :=
              if (s.indent_stack.dropWhile (fun t => decide (u32 n < t))).headD 0 < u32 n
              then toI32 n else s.pending_indent },
        d :: ds) := by
  rw [scan_lf_line s n d ds vI vD hd hp h9 h13]
  have hblank : lineIsBlank (d :: ds) = false := by
    simp only [lineIsBlank]
    simp [h10, h13, h0]
  have hpop := popLevels_eq (u32 n) s.indent_stack s.dedent_count 0 hb (by omega)
    (by omega)
  simp only [scanIndentUpdate, hblank, Bool.false_eq_true, if_false]
  rw [if_neg (by omega), if_pos hlt, hpop]
  dsimp only
  simp only [gt_iff_lt]
  by_cases hgt : (s.indent_stack.dropWhile (fun t => decide (u32 n < t))).headD 0 < u32 n
  · rw [if_pos hgt, if_pos hgt]
  · rw [if_neg hgt, if_neg hgt]

/-- C2 witness: from stack levels 0 < 2 < 4, a line indented one tab pops
two levels (two owed dedents) and, since 1 is still above the remaining
top 0, sets pending-indent to 1 (the spec section 8 example). -/
theorem scan_dedent_pops_w :
    scan ⟨[4, 2, 0], 0, -1⟩ (10 :: (List.replicate 1 9 ++ 97 :: [])) true true true =
      some (TokenType.NEWLINE, ⟨[0], 2, 1⟩, [97]) := by
  have h := scan_dedent_pops ⟨[4, 2, 0], 0, -1⟩ 1 97 [] true true rfl (by decide)
    (by decide) (by decide) (by decide) (by decide) (by decide) (by decide) (by decide)
  exact h.trans (by decide)

/-- C4 counterexample: a blank line terminated by a carriage-return pair
is absorbed as "stray carriage returns" into the scan step that consumed
the preceding terminator; that step - the one consuming the blank line -
then processes the FOLLOWING line's indentation and here sets
pending-indent to 1, so the blank line's consuming step does not leave
the pending indent unchanged. -/
theorem scan_blank_crlf_cx :
    scan scanner_reset [10, 13, 10, 9, 97] true true true =
      some (TokenType.NEWLINE,
        { indent_stack := [0], dedent_count := 0, pending_indent := 1 }, [97]) ∧
    (1 : Int) ≠ scanner_reset.pending_indent := by
  refine ⟨by decide, by decide⟩

/-- C4 (amended): a scan step whose own counted line content is blank
(only tabs, then a terminator, NUL or end-of-input) emits NEWLINE and
leaves the scanner state completely unchanged - stack, owed dedents and
pending indent.  (A CRLF-terminated blank line can instead be absorbed
into the preceding step as stray carriage returns, in which case that
step processes the following line's indentation.) -/
theorem scan_blank_line_no_change (s : Scanner) (c : Nat) (r : List Nat) (vI vD : Bool)
    (hc : c = 10 ∨ c = 13)
    (hd : s.dedent_count = 0) (hp : s.pending_indent < 0)
    (hblank : lineIsBlank (countTabs (skipCRs (advance_newline (c :: r)))).2 = true) :
    scan s (c :: r) true vI vD =
      some (TokenType.NEWLINE, s, (countTabs (skipCRs (advance_newline (c :: r)))).2) := by
  rw [scan.eq_def]
  rw [if_neg (by omega), if_neg (by push_neg; intro h; omega)]
  show (if ((c = 10 ∨ c = 13) ∧ true = true) then _ else _) = _
  rw [if_pos ⟨hc, rfl⟩]
  rw [scanIndentUpdate, if_pos hblank]

/-- C4 witness: a line-feed-terminated blank line carrying one tab emits
NEWLINE and changes nothing. -/
theorem scan_blank_line_no_change_w :
    scan ⟨[3, 0], 0, -1⟩ [10, 9, 10, 98] true true true =
      some (TokenType.NEWLINE, ⟨[3, 0], 0, -1⟩, [10, 98]) := by
  have h := scan_blank_line_no_change ⟨[3, 0], 0, -1⟩ 10 [9, 10, 98] true true
    (Or.inl rfl) rfl (by decide) (by decide)
  exact h.trans (by decide)

/-- C5 (modelled from the spec, section 4.2: the newline-only variant's
source is not under src/): at end-of-input the degenerate scanner emits
NEWLINE exactly once - the latch is set by the emission, a latched
scanner reports no match at the same end-of-input position - and the
latch resets whenever further non-EOF input is observed. -/
theorem nlscan_eof_once (s : NLScanner) (c : Nat) (r : List Nat) (vN : Bool) :
    (s.eof_emitted = false → nlscan s [] true = (true, ⟨true⟩, [])) ∧
    (nlscan ⟨true⟩ [] vN = (false, ⟨true⟩, [])) ∧
    ((nlscan s (c :: r) vN).2.1.eof_emitted = false) := by
  refine ⟨?_, ?_, ?_⟩
  · intro h
    simp [nlscan, h]
  · simp [nlscan]
  · simp only [nlscan]
    split
    · rfl
    · rfl

/-- C5 witness: the latch cycle at concrete states. -/
theorem nlscan_eof_once_w :
    nlscan ⟨false⟩ [] true = (true, ⟨true⟩, []) ∧
    nlscan ⟨true⟩ [] true = (false, ⟨true⟩, []) ∧
    (nlscan ⟨true⟩ [97] true).2.1.eof_emitted = false :=
  ⟨(nlscan_eof_once ⟨false⟩ 97 [] true).1 rfl,
   (nlscan_eof_once ⟨false⟩ 97 [] true).2.1,
   (nlscan_eof_once ⟨true⟩ 97 [] true).2.2⟩

/- ---------------------------------------------------------------------- -/
/- The structural stack invariant under creation and scanning. -/

lemma getLast?_cons_of_ne_nil (a : Nat) (l : List Nat) (h : l ≠ []) :
    (a :: l).getLast? = l.getLast? := by
  cases l with
  | nil => exact absurd rfl h
  | cons b t => rfl

lemma getLast?_tail_of_len (l : List Nat) (h : 1 < l.length) :
    l.tail.getLast? = l.getLast? := by
  cases l with
  | nil => simp at h
  | cons b t =>
    cases t with
    | nil => simp at h
    | cons c u => rfl

/-- In a strictly decreasing list, the head of any non-empty suffix is at
most the head of the list. -/
lemma headD_suf_le_of_chain (u v : List Nat) (hv : v ≠ [])
    (hc : List.Chain' (fun a b => b < a) (u ++ v)) :
    v.headD 0 ≤ (u ++ v).headD 0 := by
  induction u with
  | nil => simp
  | cons a u ih =>
    rw [List.cons_append] at hc ⊢
    have hc2 : List.Chain' (fun a b => b < a) (u ++ v) := (List.chain'_cons'.mp hc).2
    have hhead : ∀ y ∈ (u ++ v).head?, y < a := (List.chain'_cons'.mp hc).1
    have hih := ih hc2
    cases huv : u ++ v with
    | nil =>
      rcases List.append_eq_nil.mp huv with ⟨-, hv'⟩
      exact absurd hv' hv
    | cons h0 t0 =>
      have hlt : h0 < a := hhead h0 (by simp [huv])
      rw [huv] at hih
      simp only [List.headD_cons] at hih ⊢
      omega

lemma inv16_reset : Inv16 scanner_reset := by
  refine ⟨by simp [scanner_reset], by simp [scanner_reset], by simp [scanner_reset],
    ?_, by simp [scanner_reset]⟩
  intro e he
  simp [scanner_reset] at he
  omega

/-- The indentation-update block preserves the structural invariant when
the counted width fits a `uint16_t`. -/
lemma inv16_scanIndentUpdate (s : Scanner) (n : Nat) (r : List Nat)
    (h : Inv16 s) (hn : n < 65536) : Inv16 (scanIndentUpdate s n r) := by
  obtain ⟨h1, h2, h3, h4, h5⟩ := h
  have hu : u32 n = n := u32_small n (by omega)
  have hti : toI32 n = (n : Int) := toI32_small n (by omega)
  simp only [scanIndentUpdate]
  split
  · exact ⟨h1, h2, h3, h4, h5⟩
  · split
    · rename_i hgt
      refine ⟨h1, h2, h3, h4, ?_⟩
      intro _
      dsimp only
      exact ⟨by omega, by omega⟩
    · split
      · rename_i hlt
        have hsuf := popLevels_suf (u32 n) s.indent_stack s.dedent_count
        have hne := popLevels_ne_nil (u32 n) s.indent_stack s.dedent_count h1
        have hlast : (popLevels (u32 n) s.indent_stack s.dedent_count).1.getLast? =
            some 0 := by
          rw [← getLast?_of_suf hsuf hne]
          exact h2
        have hchain := chain'_of_suf hsuf h3
        have hmem := fun e he => h4 e (mem_of_suf hsuf he)
        split
        · rename_i hgt'
          refine ⟨hne, hlast, hchain, hmem, ?_⟩
          intro _
          dsimp only
          exact ⟨by omega, by omega⟩
        · rename_i hle
          refine ⟨hne, hlast, hchain, hmem, ?_⟩
          dsimp only
          intro hpi
          obtain ⟨hp1, hp2⟩ := h5 hpi
          refine ⟨hp1, ?_⟩
          obtain ⟨u, hu'⟩ := hsuf
          have hhd := headD_suf_le_of_chain u _ hne (hu' ▸ h3)
          rw [← hu'] at hhd
          omega
      · exact ⟨h1, h2, h3, h4, h5⟩

/-- Any matching scan step over an input with no 2^16-tab run preserves
the structural invariant. -/
lemma inv16_scan (s : Scanner) (input : List Nat) (vN vI vD : Bool)
    (t : TokenType) (s' : Scanner) (rest : List Nat)
    (hrun : NoRun 65536 input)
    (h : scan s input vN vI vD = some (t, s', rest)) (hi : Inv16 s) : Inv16 s' := by
  obtain ⟨h1, h2, h3, h4, h5⟩ := hi
  rcases scan_cases s input vN vI vD t s' rest h with
    ⟨_, _, _, hs, _⟩ | ⟨_, hpi, _, _, hs, _⟩ | ⟨_, _, _, _, hlen, _, hs, _⟩ |
    ⟨_, _, c, r, hin, _, _, _, hs, _⟩
  · exact hs ▸ ⟨h1, h2, h3, h4, h5⟩
  · subst hs
    obtain ⟨hp1, hp2⟩ := h5 hpi
    refine ⟨?_, ?_, ?_, ?_, by simp⟩
    · rw [pushCap]
      split
      · simp
      · exact h1
    · rw [pushCap]
      split
      · rw [getLast?_cons_of_ne_nil _ _ h1]
        exact h2
      · exact h2
    · rw [pushCap]
      split
      · rw [List.chain'_cons']
        refine ⟨?_, h3⟩
        intro y hy
        rw [u16, Nat.mod_eq_of_lt hp1]
        have : s.indent_stack.headD 0 = y := by
          cases hst : s.indent_stack with
          | nil => exact absurd hst h1
          | cons a l =>
            rw [hst] at hy
            simp at hy
            simp [hy]
        omega
      · exact h3
    · rw [pushCap]
      split
      · intro e he
        rcases List.mem_cons.mp he with he | he
        · rw [he, u16]
          exact Nat.mod_lt _ (by omega)
        · exact h4 e he
      · exact h4
  · subst hs
    refine ⟨?_, ?_, ?_, ?_, ?_⟩
    · cases hst : s.indent_stack with
      | nil => rw [hst] at hlen; simp at hlen
      | cons a l =>
        rw [hst] at hlen
        simp at hlen
        simp only [List.tail_cons]
        intro hnil
        rw [hnil] at hlen
        simp at hlen
    · rw [getLast?_tail_of_len _ hlen]
      exact h2
    · cases hst : s.indent_stack with
      | nil => rw [hst] at hlen; simp at hlen
      | cons a l =>
        simp only [List.tail_cons]
        exact (List.chain'_cons'.mp (hst ▸ h3)).2
    · intro e he
      exact h4 e (List.mem_of_mem_tail he)
    · intro hpi
      obtain ⟨hp1, hp2⟩ := h5 hpi
      refine ⟨hp1, ?_⟩
      cases hst : s.indent_stack with
      | nil => rw [hst] at hlen; simp at hlen
      | cons a l =>
        cases l with
        | nil => rw [hst] at hlen; simp at hlen
        | cons b u =>
          have hchain : List.Chain' (fun x y => y < x) (a :: b :: u) := hst ▸ h3
          have hba : b < a := (List.chain'_cons.mp hchain).1
          rw [hst] at hp2
          simp only [List.headD_cons] at hp2
          simp only [List.tail_cons, List.headD_cons]
          omega
  · subst hs
    apply inv16_scanIndentUpdate s _ _ ⟨h1, h2, h3, h4, h5⟩
    apply countTabs_lt_of_noRun
    apply noRun_suf 65536 input
    · exact hrun
    · rw [hin]
      exact sufOf_trans (skipCRs_suf _) (advance_newline_suf _)

/-- Every state reachable through creation and scanning of inputs with no
2^16-tab run satisfies the structural invariant. -/
lemma inv16_reachable (s : Scanner) (h : ReachableScan s) : Inv16 s := by
  induction h with
  | create => exact inv16_reset
  | step s input vN vI vD t s' rest _ hrun hscan ih =>
    exact inv16_scan s input vN vI vD t s' rest hrun hscan ih

/-- C10 counterexample: the claimed invariant fails for the claimed
reachability.  Deserializing a well-sized buffer with arbitrary entry
bytes reaches a state whose bottom entry is 5 (not 0), and scanning a
line of 2^16 tabs reaches - after the pending width is pushed truncated
to a `uint16_t` - the stack [0, 0], which is not strictly increasing. -/
theorem stack_invariant_cx :
    ReachableFull { indent_stack := [3, 5], dedent_count := 0, pending_indent := -1 } ∧
    ({ indent_stack := [3, 5], dedent_count := 0,
        pending_indent := -1 } : Scanner).indent_stack.getLast? ≠ some 0 ∧
    ReachableFull { indent_stack := [0, 0], dedent_count := 0, pending_indent := -1 } ∧
    ¬ List.Chain' (fun a b => b < a)
      ({ indent_stack := [0, 0], dedent_count := 0,
          pending_indent := -1 } : Scanner).indent_stack := by
  refine ⟨?_, by decide, ?_, ?_⟩
  · have h : scanner_deserialize [2, 0, 0, 0, 5, 0, 3, 0, 0, 0, 0, 0, 255, 255, 255, 255] =
        { indent_stack := [3, 5], dedent_count := 0, pending_indent := -1 } := by decide
    exact h ▸ ReachableFull.deser _
  · have hA : scan scanner_reset (10 :: (List.replicate 65536 9 ++ 97 :: []))
        true false false =
        some (TokenType.NEWLINE,
          { indent_stack := [0], dedent_count := 0, pending_indent := 65536 }, [97]) := by
      have h := scan_lf_line scanner_reset 65536 97 [] false false rfl (by decide)
        (by decide) (by decide)
      rw [h]
      decide
    have hB : scan { indent_stack := [0], dedent_count := 0, pending_indent := 65536 }
        [] false true false =
        some (TokenType.INDENT,
          { indent_stack := [0, 0], dedent_count := 0, pending_indent := -1 }, []) := by
      decide
    exact ReachableFull.step _ _ _ _ _ _ _ _
      (ReachableFull.step _ _ _ _ _ _ _ _ ReachableFull.create hA) hB
  · intro h
    exact absurd (List.chain'_cons.mp h).1 (by omega)

/-- C10 (amended): in every state reachable through create and scan steps
over inputs containing no run of 2^16 tabs, the indentation stack is
non-empty, its bottom entry has width 0 and its entries strictly
increase from the bottom; a state produced by deserializing an arbitrary
buffer is only guaranteed a non-empty stack of at most 256 entries. -/
theorem stack_invariant_scan_reachable (s : Scanner) (buf : List Nat) :
    (ReachableScan s →
      s.indent_stack ≠ [] ∧ s.indent_stack.getLast? = some 0 ∧
        List.Chain' (fun a b => b < a) s.indent_stack) ∧
    ((scanner_deserialize buf).indent_stack ≠ [] ∧
      1 ≤ (scanner_deserialize buf).indent_stack.length ∧
      (scanner_deserialize buf).indent_stack.length ≤ 256) := by
  refine ⟨?_, deser_stack_size buf⟩
  intro h
  obtain ⟨h1, h2, h3, _, _⟩ := inv16_reachable s h
  exact ⟨h1, h2, h3⟩

/-- C10 witness: the invariant at the created state and at the state
deserialized from the empty buffer. -/
theorem stack_invariant_scan_reachable_w :
    (scanner_reset.indent_stack ≠ [] ∧ scanner_reset.indent_stack.getLast? = some 0 ∧
      List.Chain' (fun a b => b < a) scanner_reset.indent_stack) ∧
    ((scanner_deserialize []).indent_stack ≠ [] ∧
      1 ≤ (scanner_deserialize []).indent_stack.length ∧
      (scanner_deserialize []).indent_stack.length ≤ 256) :=
  ⟨(stack_invariant_scan_reachable scanner_reset []).1 ReachableScan.create,
   (stack_invariant_scan_reachable scanner_reset []).2⟩

/- ---------------------------------------------------------------------- -/
/- Token conservation under the all-kinds-admissible driver. -/

lemma drive_inv_reset : DriveInv scanner_reset := by
  refine ⟨by simp [scanner_reset], by simp [scanner_reset], ?_, by simp [scanner_reset],
    by simp [scanner_reset]⟩
  intro e he
  simp [scanner_reset] at he
  omega

lemma driveInv_stack_facts (s : Scanner) (hinv : DriveInv s) :
    s.indent_stack ≠ [] ∧ s.indent_stack.length ≤ 256 ∧ s.indent_stack.headD 0 ≤ 255 := by
  obtain ⟨h2, h3, h4, _, _⟩ := hinv
  have hne : s.indent_stack ≠ [] := by
    intro hnil
    rw [hnil] at h2
    simp at h2
  have hhead : s.indent_stack.headD 0 ≤ 255 := by
    cases hst : s.indent_stack with
    | nil => exact absurd hst hne
    | cons a l =>
      simp only [List.headD_cons]
      exact h4 a (by rw [hst]; exact List.mem_cons_self a l)
  have hlen := stack_len_le s.indent_stack h3 h2
  exact ⟨hne, by omega, hhead⟩

/-- The indentation-update block under the driver invariant: the
invariant is preserved and the conservation potential is unchanged. -/
lemma drive_scanIndentUpdate (s : Scanner) (n : Nat) (r : List Nat)
    (hinv : DriveInv s) (hn : n ≤ 255) (hd : s.dedent_count = 0)
    (hp : s.pending_indent < 0) :
    DriveInv (scanIndentUpdate s n r) ∧ potential (scanIndentUpdate s n r) = potential s := by
  obtain ⟨hne, hlen, hhead⟩ := driveInv_stack_facts s hinv
  obtain ⟨h2, h3, h4, h5, h6⟩ := hinv
  have hu : u32 n = n := u32_small n (by omega)
  have hti : toI32 n = (n : Int) := toI32_small n (by omega)
  simp only [scanIndentUpdate]
  split
  · exact ⟨⟨h2, h3, h4, h5, h6⟩, rfl⟩
  · split
    · rename_i hgt
      refine ⟨⟨h2, h3, h4, ?_, h6⟩, rfl⟩
      intro _
      try dsimp only
      exact ⟨by omega, by omega⟩
    · split
      · rename_i hlt
        have hpop := popLevels_eq (u32 n) s.indent_stack s.dedent_count 0 h2
          (by omega) (by omega)
        have hsplit := List.takeWhile_append_dropWhile
          (fun t => decide (u32 n < t)) s.indent_stack
        have hdne : s.indent_stack.dropWhile (fun t => decide (u32 n < t)) ≠ [] := by
          intro hnil
          have hall : s.indent_stack.takeWhile (fun t => decide (u32 n < t)) =
              s.indent_stack := by
            conv_rhs => rw [← hsplit, hnil]
            rw [List.append_nil]
          have h0mem : (0 : Nat) ∈ s.indent_stack := getLast_mem_of_eq h2
          rw [← hall] at h0mem
          have := List.mem_takeWhile_imp h0mem
          simp at this
        have hsuf : SufOf (s.indent_stack.dropWhile (fun t => decide (u32 n < t)))
            s.indent_stack := ⟨_, hsplit.symm⟩
        have hlens : (s.indent_stack.takeWhile (fun t => decide (u32 n < t))).length +
            (s.indent_stack.dropWhile (fun t => decide (u32 n < t))).length =
            s.indent_stack.length := by
          rw [← List.length_append, hsplit]
        have hlast : (s.indent_stack.dropWhile (fun t => decide (u32 n < t))).getLast? =
            some 0 := by
          rw [← getLast?_of_suf hsuf hdne]
          exact h2
        have hchain := chain'_of_suf hsuf h3
        have hmem := fun e he => h4 e (mem_of_suf hsuf he)
        have hdlen : 1 ≤ (s.indent_stack.dropWhile (fun t => decide (u32 n < t))).length := by
          cases hdw : s.indent_stack.dropWhile (fun t => decide (u32 n < t)) with
          | nil => exact absurd hdw hdne
          | cons a l => simp
        rw [hpop, hd]
        split
        · rename_i hgt'
          refine ⟨⟨hlast, hchain, hmem, ?_, by try dsimp only; omega⟩, ?_⟩
          · intro _
            try dsimp only
            refine ⟨by omega, ?_⟩
            try dsimp only at hgt'
            omega
          · simp only [potential]
            try dsimp only
            omega
        · rename_i hle
          refine ⟨⟨hlast, hchain, hmem, ?_, by try dsimp only; omega⟩, ?_⟩
          · try dsimp only
            intro hpi
            omega
          · simp only [potential]
            try dsimp only
            omega
      · exact ⟨⟨h2, h3, h4, h5, h6⟩, rfl⟩

lemma scan_none_eof (s : Scanner) (h : scan s [] true true true = none) :
    s.dedent_count = 0 ∧ s.pending_indent < 0 ∧ s.indent_stack.length ≤ 1 := by
  rw [scan.eq_def] at h
  by_cases h1 : 0 < s.dedent_count ∧ (true : Bool) = true
  · rw [if_pos h1] at h
    cases h
  · rw [if_neg h1] at h
    by_cases h2 : 0 ≤ s.pending_indent ∧ (true : Bool) = true
    · rw [if_pos h2] at h
      cases h
    · rw [if_neg h2] at h
      by_cases h3 : (true : Bool) = true ∧ 1 < s.indent_stack.length
      · rw [if_pos h3] at h
        cases h
      · refine ⟨?_, ?_, ?_⟩
        · by_contra hd
          exact h1 ⟨by omega, rfl⟩
        · by_contra hp
          exact h2 ⟨by omega, rfl⟩
        · by_contra hl
          exact h3 ⟨rfl, by omega⟩

/-- One all-kinds-admissible scan step: the driver invariant is preserved,
the rest is a suffix, and the conservation potential moves by exactly the
emitted token's contribution. -/
lemma drive_step (s : Scanner) (input : List Nat) (t : TokenType) (s' : Scanner)
    (rest : List Nat) (h : scan s input true true true = some (t, s', rest))
    (hinv : DriveInv s) (hrun : NoRun 256 input) :
    DriveInv s' ∧ SufOf rest input ∧
      (t = TokenType.DEDENT → potential s = potential s' + 1) ∧
      (t = TokenType.INDENT → potential s' = potential s + 1) ∧
      (t = TokenType.NEWLINE → potential s' = potential s) := by
  have hsuf := scan_rest_suf s input true true true t s' rest h
  obtain ⟨hne, hlenle, hheadle⟩ := driveInv_stack_facts s hinv
  obtain ⟨h2, h3, h4, h5, h6⟩ := hinv
  rcases scan_cases s input true true true t s' rest h with
    ⟨hdp, _, ht, hs, _⟩ | ⟨hnd, hpi, _, ht, hs, _⟩ | ⟨hnd, hnp, _, _, hlen, ht, hs, _⟩ |
    ⟨hnd, hnp, c, r, hin, _, _, ht, hs, _⟩
  · subst hs
    subst ht
    refine ⟨⟨h2, h3, h4, h5, by dsimp only; omega⟩, hsuf, ?_, ?_, ?_⟩
    · intro _
      simp only [potential]
      try dsimp only
      omega
    · intro hx
      exact absurd hx (by intro hx; cases hx)
    · intro hx
      exact absurd hx (by intro hx; cases hx)
  · subst hs
    subst ht
    have hd0 : s.dedent_count = 0 := by
      by_contra hd
      exact hnd ⟨by omega, rfl⟩
    obtain ⟨hp1, hp2⟩ := h5 hpi
    have hlen2 := stack_len_le s.indent_stack h3 h2
    have hlen1 : 1 ≤ s.indent_stack.length := List.length_pos.mpr hne
    have hpush : pushCap s.indent_stack (u16 s.pending_indent.toNat) =
        u16 s.pending_indent.toNat :: s.indent_stack := by
      rw [pushCap, if_pos (by omega)]
    have hu16 : u16 s.pending_indent.toNat = s.pending_indent.toNat := by
      rw [u16]
      exact Nat.mod_eq_of_lt (by omega)
    refine ⟨⟨?_, ?_, ?_, by simp, by dsimp only; omega⟩, hsuf, ?_, ?_, ?_⟩
    · dsimp only
      rw [hpush]
      rw [getLast?_cons_of_ne_nil _ _ hne]
      exact h2
    · dsimp only
      rw [hpush, hu16, List.chain'_cons']
      refine ⟨?_, h3⟩
      intro y hy
      have : s.indent_stack.headD 0 = y := by
        cases hst : s.indent_stack with
        | nil => exact absurd hst hne
        | cons a l =>
          rw [hst] at hy
          simp at hy
          simp [hy]
      show y < s.pending_indent.toNat
      omega
    · dsimp only
      rw [hpush, hu16]
      intro e he
      rcases List.mem_cons.mp he with he | he
      · omega
      · exact h4 e he
    · intro hx
      exact absurd hx (by intro hx; cases hx)
    · intro _
      simp only [potential]
      try dsimp only
      rw [hpush]
      simp only [List.length_cons]
      omega
    · intro hx
      exact absurd hx (by intro hx; cases hx)
  · subst hs
    subst ht
    have hd0 : s.dedent_count = 0 := by
      by_contra hd
      exact hnd ⟨by omega, rfl⟩
    refine ⟨⟨?_, ?_, ?_, ?_, by dsimp only; omega⟩, hsuf, ?_, ?_, ?_⟩
    · dsimp only
      rw [getLast?_tail_of_len _ hlen]
      exact h2
    · dsimp only
      cases hst : s.indent_stack with
      | nil => exact absurd hst hne
      | cons a l =>
        simp only [List.tail_cons]
        exact (List.chain'_cons'.mp (hst ▸ h3)).2
    · dsimp only
      intro e he
      exact h4 e (List.mem_of_mem_tail he)
    · dsimp only
      intro hpi
      exact (hnp ⟨hpi, rfl⟩).elim
    · intro _
      simp only [potential]
      try dsimp only
      rw [List.length_tail]
      omega
    · intro hx
      exact absurd hx (by intro hx; cases hx)
    · intro hx
      exact absurd hx (by intro hx; cases hx)
  · subst hs
    subst ht
    have hd0 : s.dedent_count = 0 := by
      by_contra hd
      exact hnd ⟨by omega, rfl⟩
    have hp0 : s.pending_indent < 0 := by
      by_contra hp
      exact hnp ⟨by omega, rfl⟩
    have hn : (countTabs (skipCRs (advance_newline (c :: r)))).1 ≤ 255 := by
      have := countTabs_lt_of_noRun 256 (skipCRs (advance_newline (c :: r)))
        (noRun_suf 256 input _ hrun
          (hin ▸ sufOf_trans (skipCRs_suf _) (advance_newline_suf _)))
      omega
    obtain ⟨hi', hpot⟩ := drive_scanIndentUpdate s _ _ ⟨h2, h3, h4, h5, h6⟩ hn hd0 hp0
    refine ⟨hi', hsuf, ?_, ?_, ?_⟩
    · intro hx
      exact absurd hx (by intro hx; cases hx)
    · intro hx
      exact absurd hx (by intro hx; cases hx)
    · intro _
      exact hpot

/-- Token conservation along any completed all-kinds-admissible drive:
INDENTs plus the starting potential equal DEDENTs plus the final
potential, and the drive ends with the stack flushed to the single base
level and no owed dedents. -/
lemma driveDoc_balance (fuel : Nat) : ∀ (s : Scanner) (input : List Nat)
    (ts : List TokenType) (sf : Scanner),
    driveDoc fuel s input = some (ts, sf) → DriveInv s → NoRun 256 input →
    cntTok TokenType.INDENT ts + potential s =
      cntTok TokenType.DEDENT ts + potential sf ∧
      sf.indent_stack = [0] ∧ sf.dedent_count = 0 := by
  induction fuel with
  | zero =>
    intro s input ts sf h
    simp [driveDoc] at h
  | succ fuel ih =>
    intro s input ts sf h hinv hrun
    cases hscan : scan s input true true true with
    | some v =>
      obtain ⟨t, s', rest⟩ := v
      simp only [driveDoc, hscan] at h
      cases hdrive : driveDoc fuel s' rest with
      | none =>
        rw [hdrive] at h
        simp at h
      | some p =>
        obtain ⟨ts', sf'⟩ := p
        rw [hdrive] at h
        simp only [Option.some.injEq, Prod.mk.injEq] at h
        obtain ⟨hts, hsf⟩ := h
        subst hts
        subst hsf
        obtain ⟨hinv', hsuf, hD, hI, hN⟩ := drive_step s input t s' rest hscan hinv hrun
        have hrun' := noRun_suf 256 input rest hrun hsuf
        obtain ⟨hbal, hsf1, hsf2⟩ := ih s' rest ts' sf' hdrive hinv' hrun'
        refine ⟨?_, hsf1, hsf2⟩
        cases t with
        | NEWLINE =>
          have := hN rfl
          simp only [cntTok, reduceCtorEq, if_false, if_true]
          omega
        | INDENT =>
          have := hI rfl
          simp only [cntTok, reduceCtorEq, if_false, if_true]
          omega
        | DEDENT =>
          have := hD rfl
          simp only [cntTok, reduceCtorEq, if_false, if_true]
          omega
    | none =>
      cases input with
      | nil =>
        simp only [driveDoc, hscan] at h
        simp only [Option.some.injEq, Prod.mk.injEq] at h
        obtain ⟨hts, hsf⟩ := h
        subst hts
        subst hsf
        obtain ⟨hd0, hp0, hlen⟩ := scan_none_eof s hscan
        obtain ⟨hne, _, _⟩ := driveInv_stack_facts s hinv
        obtain ⟨h2, _, _, _, _⟩ := hinv
        have hstack : s.indent_stack = [0] := by
          cases hst : s.indent_stack with
          | nil => exact absurd hst hne
          | cons a l =>
            cases l with
            | nil =>
              rw [hst] at h2
              simp only [List.getLast?_singleton, Option.some.injEq] at h2
              rw [h2]
            | cons b u =>
              rw [hst] at hlen
              simp at hlen
        exact ⟨rfl, hstack, hd0⟩
      | cons c r =>
        simp only [driveDoc, hscan] at h
        have hrun' := noRun_suf 256 (c :: r) r hrun (sufOf_tail c r)
        exact ih s r ts sf h hinv hrun'

/-- C3 counterexample helper is below; first the amended claim. -/
theorem drive_token_balance (input : List Nat) (fuel : Nat) (ts : List TokenType)
    (sf : Scanner) (hrun : NoRun 256 input)
    (h : driveDoc fuel scanner_reset input = some (ts, sf)) :
    cntTok TokenType.INDENT ts = cntTok TokenType.DEDENT ts ∧ sf.indent_stack = [0] := by
  obtain ⟨hbal, hsf1, hsf2⟩ :=
    driveDoc_balance fuel scanner_reset input ts sf h drive_inv_reset hrun
  have hres : potential scanner_reset = 0 := rfl
  have hfin : potential sf = 0 := by
    simp [potential, hsf1, hsf2]
  refine ⟨by omega, hsf1⟩

/- ---------------------------------------------------------------------- -/
/- Driving a document whose lines strictly increase in indentation. -/

lemma scan_content_none (s : Scanner) (r : List Nat) (hd : s.dedent_count = 0)
    (hp : s.pending_indent < 0) :
    scan s (97 :: r) true true true = none := by
  rw [scan.eq_def]
  rw [if_neg (by omega), if_neg (by push_neg; intro h; omega)]
  show (if ((97 : Nat) = 10 ∨ (97 : Nat) = 13) ∧ true = true then _ else _) = _
  rw [if_neg (by simp)]

lemma scan_push_step (st : List Nat) (w : Nat) (r : List Nat) (hw : w < 65536) :
    scan ⟨st, 0, (w : Int)⟩ (97 :: r) true true true =
      some (TokenType.INDENT, ⟨pushCap st w, 0, -1⟩, 97 :: r) := by
  rw [scan.eq_def]
  rw [if_neg (by (try dsimp only); omega), if_pos ⟨by (try dsimp only); omega, rfl⟩]
  have h1 : ((w : Int)).toNat = w := Int.toNat_natCast w
  have h2 : u16 w = w := u16_small w hw
  simp only [h1, h2]

lemma ascending_newline_step (st : List Nat) (w : Nat) (r : List Nat)
    (hlt : st.headD 0 < w) (hw : w < 65536) :
    scan ⟨st, 0, -1⟩ (10 :: (List.replicate w 9 ++ 97 :: r)) true true true =
      some (TokenType.NEWLINE, ⟨st, 0, (w : Int)⟩, 97 :: r) := by
  rw [scan_lf_line ⟨st, 0, -1⟩ w 97 r true true rfl (by (try dsimp only); omega)
    (by omega) (by omega)]
  have hupd : scanIndentUpdate ⟨st, 0, -1⟩ w (97 :: r) = ⟨st, 0, (w : Int)⟩ := by
    simp only [scanIndentUpdate]
    rw [if_neg (by simp [lineIsBlank])]
    rw [if_pos (by rw [u32_small w (by omega)]; omega)]
    rw [toI32_small w (by omega)]
  rw [hupd]

/-- Driving a block of lines whose indentations each strictly exceed the
current (capped-push-updated) stack top: each line yields one NEWLINE
and one INDENT, then the drive continues at end-of-input. -/
lemma drive_ascending (ws : List Nat) : ∀ (st : List Nat) (fuel : Nat)
    (ts : List TokenType) (sf : Scanner),
    ascending st ws = true →
    (∀ w ∈ ws, w < 65536) →
    driveDoc fuel ⟨stackAfter st ws, 0, -1⟩ [] = some (ts, sf) →
    driveDoc (3 * ws.length + fuel) ⟨st, 0, -1⟩ ((ws.map lineC).flatten) =
      some ((ws.map fun _ => [TokenType.NEWLINE, TokenType.INDENT]).flatten ++ ts, sf) := by
  induction ws with
  | nil =>
    intro st fuel ts sf _ _ h
    simpa [stackAfter] using h
  | cons w ws ih =>
    intro st fuel ts sf hasc hw h
    simp only [ascending, Bool.and_eq_true, decide_eq_true_eq] at hasc
    obtain ⟨hlt, hasc'⟩ := hasc
    have hw0 : w < 65536 := hw w (List.mem_cons_self w ws)
    have hst' : stackAfter st (w :: ws) = stackAfter (pushCap st w) ws := rfl
    rw [hst'] at h
    have h3 := ih (pushCap st w) fuel ts sf hasc'
      (fun x hx => hw x (List.mem_cons_of_mem w hx)) h
    have h2 := driveDoc_none_cons (3 * ws.length + fuel) ⟨pushCap st w, 0, -1⟩ 97
      ((ws.map lineC).flatten) (scan_content_none _ _ rfl (by (try dsimp only); omega))
    rw [h3] at h2
    have h1 := driveDoc_step_some (3 * ws.length + fuel + 1) ⟨st, 0, (w : Int)⟩
      (97 :: (ws.map lineC).flatten) TokenType.INDENT ⟨pushCap st w, 0, -1⟩
      (97 :: (ws.map lineC).flatten) _ _
      (scan_push_step st w ((ws.map lineC).flatten) hw0) h2
    have h0 := driveDoc_step_some (3 * ws.length + fuel + 1 + 1) ⟨st, 0, -1⟩
      (10 :: (List.replicate w 9 ++ 97 :: (ws.map lineC).flatten)) TokenType.NEWLINE
      ⟨st, 0, (w : Int)⟩ (97 :: (ws.map lineC).flatten) _ _
      (ascending_newline_step st w ((ws.map lineC).flatten) hlt hw0) h1
    have hfuel : 3 * (w :: ws).length + fuel = 3 * ws.length + fuel + 1 + 1 + 1 := by
      simp only [List.length_cons]
      omega
    have hin : ((w :: ws).map lineC).flatten =
        10 :: (List.replicate w 9 ++ 97 :: ((ws.map lineC).flatten)) := by
      simp [lineC, List.append_assoc]
    rw [hfuel, hin, h0]
    simp

set_option maxRecDepth 100000 in
/-- C3 counterexample: the staircase document climbing through
indentations 1..256 exceeds the 256-level cap once; its 256th INDENT is
emitted without a push, so the full drive (including the end-of-input
flush) emits 256 INDENT tokens but only 255 DEDENT tokens. -/
theorem drive_cap_imbalance_cx :
    driveDoc 1025 scanner_reset stairsDoc = some (stairToks, scanner_reset) ∧
    cntTok TokenType.INDENT stairToks = 256 ∧
    cntTok TokenType.DEDENT stairToks = 255 ∧
    cntTok TokenType.INDENT stairToks ≠ cntTok TokenType.DEDENT stairToks := by
  have hasc : ascending [0] (List.range' 1 256) = true := by decide
  have hw : ∀ w ∈ List.range' 1 256, w < 65536 := by decide
  have hflush : driveDoc 256 ⟨stackAfter [0] (List.range' 1 256), 0, -1⟩ [] =
      some (List.replicate 255 TokenType.DEDENT,
        ⟨[0], (0 : Nat), (-1 : Int)⟩) := by
    have hef := drive_eof_flush (stackAfter [0] (List.range' 1 256)) 256
      ⟨stackAfter [0] (List.range' 1 256), 0, -1⟩ rfl rfl (by decide) (by decide)
      (by decide)
    exact hef.trans (by decide)
  have h2 := drive_ascending (List.range' 1 256) [0] 256
    (List.replicate 255 TokenType.DEDENT) ⟨[0], (0 : Nat), (-1 : Int)⟩ hasc hw hflush
  have hlen' : (List.range' 1 256).length = 256 := by decide
  have hstep1 : driveDoc 1025 scanner_reset stairsDoc =
      driveDoc 1024 scanner_reset (((List.range' 1 256).map lineC).flatten) := by
    exact driveDoc_none_cons 1024 scanner_reset 97 _
      (scan_content_none scanner_reset _ rfl (by decide))
  have hbridge : driveDoc 1024 scanner_reset (((List.range' 1 256).map lineC).flatten) =
      driveDoc (3 * (List.range' 1 256).length + 256) ⟨[0], (0 : Nat), (-1 : Int)⟩
        (((List.range' 1 256).map lineC).flatten) := by
    rw [hlen']
    rfl
  refine ⟨(hstep1.trans (hbridge.trans h2)).trans (by decide), by decide, by decide,
    by decide⟩

/-- C3 witness: the single-line document "a" drives to completion with no
tokens and the stack at the base level. -/
theorem drive_token_balance_w :
    cntTok TokenType.INDENT [] = cntTok TokenType.DEDENT [] ∧
      scanner_reset.indent_stack = [0] :=
  drive_token_balance [97] 2 [] scanner_reset
    (noRun_of_short 256 [97] (by decide)) (by decide)
